import Mathlib

/-!
Verification of the symbol-extraction core described in the repository's
specification.  The repository's visible source is the Rust fixture file
`src/src/tools/localTools/test-files/simple_rust.rs`; the extraction core
itself is not present under `src/`, so every definition of the pipeline
below is modelled from the specification (sections 2-7) and checked
against the fixture.
-/

namespace SymbolExtraction

/-- Modelled from the spec: the kind of a declared symbol
(`module | function | type | other`, spec section 6). -/
inductive SymbolKind where
  | module
  | function
  | type_
  | other
deriving DecidableEq, Repr

instance : Inhabited SymbolKind := ⟨SymbolKind.other⟩

/-- Modelled from the spec: token kinds produced by the Lexical Scanner
(spec section 4.1): keywords, identifiers, structural punctuation,
comments (ordinary line, block, doc), string literals, and an `other`
kind for unrecognized characters. -/
inductive TokenKind where
  | kw (k : String)
  | ident
  | lbrace
  | rbrace
  | semi
  | lineComment
  | blockComment
  | docComment
  | stringLit
  | other
deriving DecidableEq, Repr

/-- Modelled from the spec: a Token with kind, byte span and raw text
(spec section 3). -/
structure Token where
  kind : TokenKind
  start : Nat
  stop : Nat
  text : String
deriving DecidableEq, Repr

/-- Modelled from the spec: a LanguageProfile (spec section 3): language id,
declaration keyword set with the symbol kind each keyword introduces,
declaration modifier keywords (visibility prefixes such as `pub` that open
a declaration without fixing its kind), and the nesting separator. -/
structure LanguageProfile where
  id : String
  kindKeywords : List (String × SymbolKind)
  modifiers : List String
  nestingSep : String
deriving DecidableEq, Repr

/-- The Rust-family profile exercised by the fixture. -/
def rustProfile : LanguageProfile :=
  { id := "rust"
  , kindKeywords :=
      [("mod", SymbolKind.module), ("fn", SymbolKind.function),
       ("struct", SymbolKind.type_), ("enum", SymbolKind.type_),
       ("trait", SymbolKind.type_), ("type", SymbolKind.type_)]
  , modifiers := ["pub"]
  , nestingSep := "::" }

/-- Modelled from the spec: the Language Profile Registry (spec section 4.5),
a read-only table populated at initialization. -/
def profiles : List LanguageProfile := [rustProfile]

/-- Registry lookup: `get(languageId)` (spec section 4.5). -/
def lookupProfile (languageId : String) : Option LanguageProfile :=
  profiles.find? (fun p => p.id = languageId)

/-- The symbol kind a declaration keyword introduces, if it is a
kind-determining keyword of the profile. -/
def keywordKind (p : LanguageProfile) (s : String) : Option SymbolKind :=
  (p.kindKeywords.find? (fun kv => kv.1 = s)).map (fun kv => kv.2)

/-- Whether an identifier is a declaration-introducing keyword of the
profile (a kind keyword or a modifier such as `pub`). -/
def isKeyword (p : LanguageProfile) (s : String) : Bool :=
  (keywordKind p s).isSome || p.modifiers.contains s

/-! ## Lexical Scanner (spec section 4.1) -/

def isIdentStart (c : Char) : Bool := c.isAlpha || c = '_'

def isIdentChar (c : Char) : Bool := c.isAlphanum || c = '_'

/-- Characters of the current line, up to but excluding the newline. -/
def takeLine : List Char → List Char × List Char
  | [] => ([], [])
  | c :: cs =>
      if c = '\n' then ([], c :: cs)
      else
        let r := takeLine cs
        (c :: r.1, r.2)

/-- Scan the body of a block comment after the opening marker; returns the
number of characters consumed (including the closing marker) and the rest,
or `none` when the comment is unterminated at end-of-input. -/
def scanBlock : List Char → Option (Nat × List Char)
  | [] => none
  | c :: cs =>
      if c = '*' && cs.head? == some '/' then some (2, cs.tail)
      else (scanBlock cs).map (fun r => (r.1 + 1, r.2))

/-- Scan the body of a string literal after the opening quote, honouring
backslash escapes (the flag records that the previous character was an
unconsumed backslash); returns the number of characters consumed
(including the closing quote) and the rest, or `none` when the literal is
unterminated at end-of-input. -/
def scanStrAux : Bool → List Char → Option (Nat × List Char)
  | _, [] => none
  | esc, c :: cs =>
      if esc then (scanStrAux false cs).map (fun r => (r.1 + 1, r.2))
      else if c = '"' then some (1, cs)
      else if c = '\\' then (scanStrAux true cs).map (fun r => (r.1 + 1, r.2))
      else (scanStrAux false cs).map (fun r => (r.1 + 1, r.2))

def scanStr (cs : List Char) : Option (Nat × List Char) := scanStrAux false cs

/-- The identifier-character prefix of the input. -/
def takeWhileId : List Char → List Char × List Char
  | [] => ([], [])
  | c :: cs =>
      if isIdentChar c then
        let r := takeWhileId cs
        (c :: r.1, r.2)
      else ([], c :: cs)

/-- One step of the scanner: classify the token starting at offset `pos`
whose first character is `c`.  Returns an optional token (a whitespace
character produces none), the number of characters consumed (always at
least one) and the remaining characters; fails with the offset of the
opening delimiter exactly for an unterminated string or block-comment
literal (spec section 4.1). -/
def nextTok (p : LanguageProfile) (pos : Nat) (c : Char) (cs : List Char) :
    Except Nat (Option Token × Nat × List Char) :=
  if c.isWhitespace then Except.ok (none, 1, cs)
  else if c = '/' ∧ cs.head? = some '/' ∧ cs.tail.head? = some '/' then
    let r := takeLine cs.tail.tail
    Except.ok (some ⟨TokenKind.docComment, pos, pos + (3 + r.1.length),
      String.mk ('/' :: '/' :: '/' :: r.1)⟩, 3 + r.1.length, r.2)
  else if c = '/' ∧ cs.head? = some '/' then
    let r := takeLine cs.tail
    Except.ok (some ⟨TokenKind.lineComment, pos, pos + (2 + r.1.length),
      String.mk ('/' :: '/' :: r.1)⟩, 2 + r.1.length, r.2)
  else if c = '/' ∧ cs.head? = some '*' then
    match scanBlock cs.tail with
    | none => Except.error pos
    | some r =>
        Except.ok (some ⟨TokenKind.blockComment, pos, pos + (2 + r.1), ""⟩,
          2 + r.1, r.2)
  else if c = '"' then
    match scanStr cs with
    | none => Except.error pos
    | some r =>
        Except.ok (some ⟨TokenKind.stringLit, pos, pos + (1 + r.1), ""⟩,
          1 + r.1, r.2)
  else if isIdentStart c then
    let r := takeWhileId cs
    let s := String.mk (c :: r.1)
    let k := if isKeyword p s then TokenKind.kw s else TokenKind.ident
    Except.ok (some ⟨k, pos, pos + (1 + r.1.length), s⟩, 1 + r.1.length, r.2)
  else if c = '{' then
    Except.ok (some ⟨TokenKind.lbrace, pos, pos + 1, String.mk [c]⟩, 1, cs)
  else if c = '}' then
    Except.ok (some ⟨TokenKind.rbrace, pos, pos + 1, String.mk [c]⟩, 1, cs)
  else if c = ';' then
    Except.ok (some ⟨TokenKind.semi, pos, pos + 1, String.mk [c]⟩, 1, cs)
  else Except.ok (some ⟨TokenKind.other, pos, pos + 1, String.mk [c]⟩, 1, cs)

/-- The Lexical Scanner main loop (spec section 4.1): raw characters to a
token sequence, or the offset of the unterminated literal.  The fuel
argument is structural; any fuel at least the input length yields the
fixpoint, since every step consumes at least one character. -/
def scan (p : LanguageProfile) : Nat → Nat → List Char → Except Nat (List Token)
  | 0, _, _ => Except.ok []
  | _ + 1, _, [] => Except.ok []
  | fuel + 1, pos, c :: cs =>
      match nextTok p pos c cs with
      | Except.error e => Except.error e
      | Except.ok (o, n, rest) =>
          match scan p fuel (pos + n) rest with
          | Except.error e => Except.error e
          | Except.ok ts => Except.ok (o.elim ts (fun t => t :: ts))

/-! ## Declaration Recognizer (spec section 4.3) -/

/-- Modelled from the spec: a DeclarationSpan (spec section 3): kind, name,
byte span, and parent reference by index into the span arena. -/
structure Span where
  kind : SymbolKind
  name : String
  startOff : Nat
  endOff : Nat
  parent : Option Nat
deriving DecidableEq, Repr

instance : Inhabited Span := ⟨⟨SymbolKind.other, "", 0, 0, none⟩⟩

/-- Parse forward through a declaration signature (spec section 4.3):
collect the declaration kind from the first kind keyword and the name from
the first identifier; stop, without consuming, at a scope-opening or
statement-terminating token.  A signature with no recognizable name yields
an empty name and kind `other`. -/
def parseSig (p : LanguageProfile) :
    Option SymbolKind → List Token → SymbolKind × String × List Token
  | _, [] => (SymbolKind.other, "", [])
  | ck, t :: ts =>
      match t.kind with
      | TokenKind.kw s => parseSig p (ck <|> keywordKind p s) ts
      | TokenKind.ident => (ck.getD SymbolKind.other, t.text, ts)
      | TokenKind.lbrace => (SymbolKind.other, "", t :: ts)
      | TokenKind.rbrace => (SymbolKind.other, "", t :: ts)
      | TokenKind.semi => (SymbolKind.other, "", t :: ts)
      | _ => parseSig p ck ts

/-- Overwrite the end offset of the span at index `i`. -/
def setEnd : List Span → Nat → Nat → List Span
  | [], _, _ => []
  | s :: ss, 0, e => { s with endOff := e } :: ss
  | s :: ss, i + 1, e => s :: setEnd ss i e

/-- Close every span still open at end-of-input at the end-of-file offset
(spec sections 4.3 and 7: unbalanced scopes close implicitly). -/
def closeAll (a : List Span) (stack : List Nat) (len : Nat) : List Span :=
  match stack with
  | [] => a
  | i :: r => closeAll (setEnd a i len) r len

/-- Recognizer state: the span arena in creation order, the stack of open
span indices (innermost first), and the most recently created span when it
is still awaiting its opening brace. -/
structure RecState where
  arena : List Span
  stack : List Nat
  pending : Option Nat

def initState : RecState := ⟨[], [], none⟩

/-- The Declaration Recognizer (spec section 4.3): walk the token stream
keeping a stack of open scopes; a declaration keyword creates a span (as a
child of the innermost open scope) whose signature is parsed forward; a
scope-opening token pushes the pending declaration (or an anonymous span);
a scope-closing token pops and finalizes the innermost span; spans still
open at end-of-input are closed at the end-of-file offset. -/
def recog (p : LanguageProfile) (len : Nat) :
    Nat → List Token → RecState → List Span
  | 0, _, st => closeAll st.arena st.stack len
  | _ + 1, [], st => closeAll st.arena st.stack len
  | fuel + 1, t :: ts, st =>
      match t.kind with
      | TokenKind.kw s =>
          let r := parseSig p (keywordKind p s) ts
          let idx := st.arena.length
          recog p len fuel r.2.2
            ⟨st.arena ++ [⟨r.1, r.2.1, t.start, t.stop, st.stack.head?⟩],
             st.stack, some idx⟩
      | TokenKind.lbrace =>
          match st.pending with
          | some i => recog p len fuel ts ⟨st.arena, i :: st.stack, none⟩
          | none =>
              let idx := st.arena.length
              recog p len fuel ts
                ⟨st.arena ++ [⟨SymbolKind.other, "", t.start, t.stop, st.stack.head?⟩],
                 idx :: st.stack, none⟩
      | TokenKind.rbrace =>
          match st.stack with
          | i :: rest => recog p len fuel ts ⟨setEnd st.arena i t.stop, rest, none⟩
          | [] => recog p len fuel ts ⟨st.arena, [], none⟩
      | TokenKind.semi => recog p len fuel ts ⟨st.arena, st.stack, none⟩
      | _ => recog p len fuel ts st

/-! ## Doc-Comment Collector (spec section 4.2) -/

/-- Strip the doc marker (and one following space) from a raw doc-comment
text, per the DocBlock contract (spec section 3: rendered text with
markers stripped). -/
def stripDoc (s : String) : String :=
  String.mk (match s.data.drop 3 with
    | ' ' :: r => r
    | r => r)

/-- Modelled from the spec: a DocBlock (spec section 3): rendered text with
markers stripped, and the start offset of the declaration it is associated
with (none when the block is orphaned and discarded from attachment). -/
structure DocBlock where
  text : String
  target : Option Nat
deriving DecidableEq, Repr

/-- The texts of the maximal run of doc-comment tokens at the head of the
stream, and the remaining tokens. -/
def takeDocRun : List Token → List String × List Token
  | [] => ([], [])
  | t :: ts =>
      if t.kind = TokenKind.docComment then
        let r := takeDocRun ts
        (stripDoc t.text :: r.1, r.2)
      else ([], t :: ts)

/-- Whether a token is an ordinary (non-doc) comment. -/
def isOrdComment (t : Token) : Bool :=
  t.kind = TokenKind.lineComment || t.kind = TokenKind.blockComment

/-- Whether a token introduces a declaration. -/
def isDeclStart (t : Token) : Bool :=
  match t.kind with
  | TokenKind.kw _ => true
  | _ => false

/-- Find the declaration a closed doc block tentatively attaches to (spec
section 4.2): skip ordinary comments; attach to the next
declaration-introducing token; anything else orphans the block. -/
def findTarget : List Token → Option Nat
  | [] => none
  | t :: ts =>
      if isOrdComment t then findTarget ts
      else if isDeclStart t then some t.start
      else none

/-- The Doc-Comment Collector (spec section 4.2): group maximal runs of
doc-comment tokens into DocBlocks and tentatively associate each with the
next declaration-introducing token. -/
def collect : Nat → List Token → List DocBlock
  | 0, _ => []
  | _ + 1, [] => []
  | fuel + 1, t :: ts =>
      if t.kind = TokenKind.docComment then
        let r := takeDocRun ts
        ⟨String.intercalate (String.mk ['\n']) (stripDoc t.text :: r.1),
          findTarget r.2⟩ :: collect fuel r.2
      else collect fuel ts

/-! ## Symbol Table Builder (spec section 4.4) -/

/-- Modelled from the spec: a SymbolRecord (spec sections 3 and 6): fully
qualified name, kind, byte span, optional documentation text, and nesting
depth. -/
structure SymbolRecord where
  fqName : String
  kind : SymbolKind
  startOff : Nat
  endOff : Nat
  doc : Option String
  depth : Nat
deriving DecidableEq, Repr

/-- The span at index `i` of the arena. -/
def spanAt (a : List Span) (i : Nat) : Span := (a.get? i).getD default

/-- The names along the ancestor chain of span `i`, root first, computed by
walking parent references with explicit fuel. -/
def pathNames (a : List Span) : Nat → Nat → List String
  | 0, i => [(spanAt a i).name]
  | fuel + 1, i =>
      match (spanAt a i).parent with
      | none => [(spanAt a i).name]
      | some pa => pathNames a fuel pa ++ [(spanAt a i).name]

/-- Build the SymbolRecord for span `i` (spec section 4.4): the fully
qualified name joins the ancestor chain with the nesting separator; the
documentation text comes from the DocBlock associated with the span's
opening offset, if any. -/
def recordOf (p : LanguageProfile) (a : List Span) (blocks : List DocBlock)
    (i : Nat) : SymbolRecord :=
  let s := spanAt a i
  let path := pathNames a i i
  { fqName := String.intercalate p.nestingSep path
  , kind := s.kind
  , startOff := s.startOff
  , endOff := s.endOff
  , doc := (blocks.find? (fun b => b.target = some s.startOff)).map DocBlock.text
  , depth := path.length - 1 }

/-- The Symbol Table Builder (spec section 4.4): one SymbolRecord per
DeclarationSpan, in source-appearance order of declaration openings. -/
def buildRecords (p : LanguageProfile) (a : List Span)
    (blocks : List DocBlock) : List SymbolRecord :=
  (List.range a.length).map (recordOf p a blocks)

/-! ## Core entry point (spec section 6) -/

/-- Modelled from the spec: the error taxonomy (spec section 7). -/
inductive ExtractionError where
  | UnsupportedLanguage
  | MalformedInput (offset : Nat)
deriving DecidableEq, Repr

/-- `extractSymbols(sourceText, languageId)` (spec section 6): look up the
language profile, scan, recognize declarations and collect doc comments,
and build the ordered symbol table. -/
def extractSymbols (sourceText languageId : String) :
    Except ExtractionError (List SymbolRecord) :=
  match lookupProfile languageId with
  | none => Except.error ExtractionError.UnsupportedLanguage
  | some p =>
      match scan p sourceText.data.length 0 sourceText.data with
      | Except.error off => Except.error (ExtractionError.MalformedInput off)
      | Except.ok toks =>
          Except.ok (buildRecords p
            (recog p sourceText.length toks.length toks initState)
            (collect toks.length toks))

/-- The declaration-span arena an extraction call builds for a source text
(empty when scanning fails). -/
def arenaOf (p : LanguageProfile) (src : String) : List Span :=
  match scan p src.data.length 0 src.data with
  | Except.error _ => []
  | Except.ok toks => recog p src.length toks.length toks initState

/-- The token stream of a source text under a profile (empty when scanning
fails). -/
def toksOf (p : LanguageProfile) (src : String) : List Token :=
  match scan p src.data.length 0 src.data with
  | Except.error _ => []
  | Except.ok toks => toks

/-- The fixture file `simple_rust.rs`, byte for byte. -/
def fixture : String :=
  "// Simple Rust test file for symbol extraction\n/// Test module docstring\npub mod test_mod \x7b\n    /// Test function docstring\n    pub fn my_func(param: &str) -> String \x7b\n        format!(\"Hello, \x7b\x7d!\", param)\n    \x7d\n\x7d\n\nfn main() \x7b\n    let result = test_mod::my_func(\"World\");\n    println!(\"\x7b\x7d\", result);\n\x7d\n"

/-! ## Scanner stream lemmas -/

/-- Tokens start at or after `pos`, have positive width, and appear in
strictly increasing disjoint positions. -/
def ToksFrom : Nat → List Token → Prop
  | _, [] => True
  | pos, t :: ts => pos ≤ t.start ∧ t.start < t.stop ∧ ToksFrom t.stop ts

/-- The input begins with the opening of a literal that runs unterminated
to end-of-input: an unterminated string or an unterminated block
comment. -/
def OpenerBad (l : List Char) : Prop :=
  (∃ t, l = '"' :: t ∧ scanStr t = none) ∨
  (∃ t, l = '/' :: '*' :: t ∧ scanBlock t = none)

/-- Adjacent block-comment opening marker occurs somewhere in the input. -/
def hasBlockOpen : List Char → Bool
  | [] => false
  | c :: cs => (c = '/' && cs.head? == some '*') || hasBlockOpen cs

/-- The scope stack forms a parent chain: each open span's parent is the
next deeper open span, and the outermost open span has no parent. -/
def StackOk (a : List Span) : List Nat → Prop
  | [] => True
  | [i] => (spanAt a i).parent = none
  | i :: j :: r => (spanAt a i).parent = some j ∧ StackOk a (j :: r)

/-! ## Recognizer invariant -/

/-- The running invariant of the Declaration Recognizer: arena entries are
created in source order, open scopes form a properly nested parent chain,
closed spans have final end offsets, and siblings are disjoint. -/
structure RecInv (a : List Span) (stack : List Nat) (pending : Option Nat)
    (pos : Nat) : Prop where
  stackLt : ∀ i ∈ stack, i < a.length
  stackSorted : stack.Pairwise (fun i j => j < i)
  stackOk : StackOk a stack
  startMono : (a.map Span.startOff).Pairwise (· < ·)
  startLt : ∀ s ∈ a, s.startOff < pos
  closedEnd : ∀ i, i < a.length → i ∉ stack → (spanAt a i).endOff ≤ pos
  parentFacts : ∀ i, i < a.length → ∀ pa, (spanAt a i).parent = some pa →
      pa < i ∧ (spanAt a pa).startOff ≤ (spanAt a i).startOff ∧
      (pa ∈ stack ∨ (spanAt a i).endOff ≤ (spanAt a pa).endOff)
  pendingFacts : ∀ i, pending = some i →
      i + 1 = a.length ∧ i ∉ stack ∧ (spanAt a i).parent = stack.head?
  siblings : ∀ i j, i < j → j < a.length →
      (spanAt a i).parent = (spanAt a j).parent →
      (spanAt a i).endOff ≤ (spanAt a j).startOff ∧ i ∉ stack

/-- What holds of the finished span arena: parent ranges contain child
ranges, openings are strictly ordered, siblings are disjoint, and every
end offset is within the file. -/
structure SpanTreeOk (a : List Span) (len : Nat) : Prop where
  parentsOk : ∀ i, i < a.length → ∀ pa, (spanAt a i).parent = some pa →
      pa < i ∧ (spanAt a pa).startOff ≤ (spanAt a i).startOff ∧
      (spanAt a i).endOff ≤ (spanAt a pa).endOff
  startMono : (a.map Span.startOff).Pairwise (· < ·)
  siblingsOk : ∀ i j, i < j → j < a.length →
      (spanAt a i).parent = (spanAt a j).parent →
      (spanAt a i).endOff ≤ (spanAt a j).startOff
  endLe : ∀ s ∈ a, s.endOff ≤ len

/-! ## Ancestor chains -/

/-- The ancestor chain of span `i`: the list of span indices from the root
of its tree down to `i` itself, following parent references. -/
inductive AncChain (a : List Span) : Nat → List Nat → Prop where
  | root (i : Nat) : (spanAt a i).parent = none → AncChain a i [i]
  | step (i pa : Nat) (l : List Nat) : (spanAt a i).parent = some pa →
      AncChain a pa l → AncChain a i (l ++ [i])

/-- The index path from the root to span `i`, computed with explicit
fuel. -/
def idxPath (a : List Span) : Nat → Nat → List Nat
  | 0, i => [i]
  | fuel + 1, i =>
      match (spanAt a i).parent with
      | none => [i]
      | some pa => idxPath a fuel pa ++ [i]

set_option maxRecDepth 1000000

theorem takeLine_len (cs : List Char) :
    (takeLine cs).1.length + (takeLine cs).2.length = cs.length := by
  induction cs with
  | nil => simp [takeLine]
  | cons c cs ih =>
      by_cases h : c = '\n' <;> simp [takeLine, h] <;> omega

theorem scanBlock_len (cs : List Char) :
    ∀ n r, scanBlock cs = some (n, r) → 1 ≤ n ∧ n + r.length = cs.length := by
  induction cs with
  | nil => intro n r h; simp [scanBlock] at h
  | cons c cs ih =>
      intro n r h
      rw [scanBlock] at h
      by_cases hc : (c = '*' && cs.head? == some '/') = true
      · rw [if_pos hc] at h
        simp only [Option.some.injEq, Prod.mk.injEq] at h
        obtain ⟨h1, h2⟩ := h
        simp only [Bool.and_eq_true, beq_iff_eq, decide_eq_true_eq] at hc
        cases cs with
        | nil => simp at hc
        | cons d ds =>
            subst h1; subst h2
            simp only [List.tail_cons, List.length_cons]
            omega
      · rw [if_neg hc] at h
        cases hm : scanBlock cs with
        | none => rw [hm] at h; simp at h
        | some q =>
            rw [hm] at h
            simp only [Option.map_some', Option.some.injEq, Prod.mk.injEq] at h
            obtain ⟨h1, h2⟩ := h
            obtain ⟨hq1, hq2⟩ := ih q.1 q.2 (by rw [hm])
            subst h1; subst h2
            simp only [List.length_cons]
            omega

theorem scanStrAux_len (cs : List Char) :
    ∀ esc n r, scanStrAux esc cs = some (n, r) → 1 ≤ n ∧ n + r.length = cs.length := by
  induction cs with
  | nil => intro esc n r h; simp [scanStrAux] at h
  | cons c cs ih =>
      intro esc n r h
      rw [scanStrAux] at h
      by_cases he : esc = true
      · rw [if_pos he] at h
        cases hm : scanStrAux false cs with
        | none => rw [hm] at h; simp at h
        | some q =>
            rw [hm] at h
            simp only [Option.map_some', Option.some.injEq, Prod.mk.injEq] at h
            obtain ⟨h1, h2⟩ := h
            obtain ⟨hq1, hq2⟩ := ih false q.1 q.2 (by rw [hm])
            subst h1; subst h2
            simp only [List.length_cons]
            omega
      · rw [if_neg he] at h
        by_cases hq : c = '"'
        · rw [if_pos hq] at h
          simp only [Option.some.injEq, Prod.mk.injEq] at h
          obtain ⟨h1, h2⟩ := h
          subst h1; subst h2
          simp only [List.length_cons]
          omega
        · rw [if_neg hq] at h
          by_cases hb : c = '\\'
          · rw [if_pos hb] at h
            cases hm : scanStrAux true cs with
            | none => rw [hm] at h; simp at h
            | some q =>
                rw [hm] at h
                simp only [Option.map_some', Option.some.injEq, Prod.mk.injEq] at h
                obtain ⟨h1, h2⟩ := h
                obtain ⟨hq1, hq2⟩ := ih true q.1 q.2 (by rw [hm])
                subst h1; subst h2
                simp only [List.length_cons]
                omega
          · rw [if_neg hb] at h
            cases hm : scanStrAux false cs with
            | none => rw [hm] at h; simp at h
            | some q =>
                rw [hm] at h
                simp only [Option.map_some', Option.some.injEq, Prod.mk.injEq] at h
                obtain ⟨h1, h2⟩ := h
                obtain ⟨hq1, hq2⟩ := ih false q.1 q.2 (by rw [hm])
                subst h1; subst h2
                simp only [List.length_cons]
                omega

theorem takeWhileId_len (cs : List Char) :
    (takeWhileId cs).1.length + (takeWhileId cs).2.length = cs.length := by
  induction cs with
  | nil => simp [takeWhileId]
  | cons c cs ih =>
      by_cases h : isIdentChar c
      · simp [takeWhileId, h]; omega
      · simp [takeWhileId, h]

/-- The scanner step always consumes at least one character, and consumed
plus remaining accounts for the whole input. -/
theorem nextTok_len (p : LanguageProfile) (pos : Nat) (c : Char) (cs : List Char)
    (o : Option Token) (n : Nat) (rest : List Char)
    (h : nextTok p pos c cs = Except.ok (o, n, rest)) :
    1 ≤ n ∧ n + rest.length = cs.length + 1 := by
  rw [nextTok] at h
  by_cases hw : c.isWhitespace = true
  · rw [if_pos hw] at h
    simp only [Except.ok.injEq, Prod.mk.injEq] at h
    obtain ⟨-, h2, h3⟩ := h
    subst h2; subst h3; omega
  · rw [if_neg hw] at h
    by_cases hdoc : c = '/' ∧ cs.head? = some '/' ∧ cs.tail.head? = some '/'
    · rw [if_pos hdoc] at h
      simp only [Except.ok.injEq, Prod.mk.injEq] at h
      obtain ⟨-, h2, h3⟩ := h
      obtain ⟨-, hh1, hh2⟩ := hdoc
      cases cs with
      | nil => simp at hh1
      | cons a as =>
          cases as with
          | nil => simp at hh2
          | cons b bs =>
              subst h2; subst h3
              have ht := takeLine_len bs
              simp only [List.tail_cons]
              simp only [List.length_cons]
              omega
    · rw [if_neg hdoc] at h
      by_cases hline : c = '/' ∧ cs.head? = some '/'
      · rw [if_pos hline] at h
        simp only [Except.ok.injEq, Prod.mk.injEq] at h
        obtain ⟨-, h2, h3⟩ := h
        obtain ⟨-, hh1⟩ := hline
        cases cs with
        | nil => simp at hh1
        | cons a as =>
            subst h2; subst h3
            have ht := takeLine_len as
            simp only [List.tail_cons]
            simp only [List.length_cons]
            omega
      · rw [if_neg hline] at h
        by_cases hblk : c = '/' ∧ cs.head? = some '*'
        · rw [if_pos hblk] at h
          cases hm : scanBlock cs.tail with
          | none => rw [hm] at h; simp at h
          | some q =>
              rw [hm] at h
              simp only [Except.ok.injEq, Prod.mk.injEq] at h
              obtain ⟨-, h2, h3⟩ := h
              obtain ⟨-, hh1⟩ := hblk
              cases cs with
              | nil => simp at hh1
              | cons a as =>
                  subst h2; subst h3
                  obtain ⟨hq1, hq2⟩ := scanBlock_len as q.1 q.2 (by
                    simpa using hm)
                  simp only [List.length_cons]
                  omega
        · rw [if_neg hblk] at h
          by_cases hstr : c = '"'
          · rw [if_pos hstr] at h
            cases hm : scanStr cs with
            | none => rw [hm] at h; simp at h
            | some q =>
                rw [hm] at h
                simp only [Except.ok.injEq, Prod.mk.injEq] at h
                obtain ⟨-, h2, h3⟩ := h
                subst h2; subst h3
                obtain ⟨hq1, hq2⟩ := scanStrAux_len cs false q.1 q.2 hm
                omega
          · rw [if_neg hstr] at h
            by_cases hid : isIdentStart c = true
            · rw [if_pos hid] at h
              simp only [Except.ok.injEq, Prod.mk.injEq] at h
              obtain ⟨-, h2, h3⟩ := h
              subst h2; subst h3
              have ht := takeWhileId_len cs
              omega
            · rw [if_neg hid] at h
              by_cases ho : c = '{'
              · rw [if_pos ho] at h
                simp only [Except.ok.injEq, Prod.mk.injEq] at h
                obtain ⟨-, h2, h3⟩ := h
                subst h2; subst h3; omega
              · rw [if_neg ho] at h
                by_cases hc2 : c = '}'
                · rw [if_pos hc2] at h
                  simp only [Except.ok.injEq, Prod.mk.injEq] at h
                  obtain ⟨-, h2, h3⟩ := h
                  subst h2; subst h3; omega
                · rw [if_neg hc2] at h
                  by_cases hc3 : c = ';'
                  · rw [if_pos hc3] at h
                    simp only [Except.ok.injEq, Prod.mk.injEq] at h
                    obtain ⟨-, h2, h3⟩ := h
                    subst h2; subst h3; omega
                  · rw [if_neg hc3] at h
                    simp only [Except.ok.injEq, Prod.mk.injEq] at h
                    obtain ⟨-, h2, h3⟩ := h
                    subst h2; subst h3; omega

theorem parseSig_len (p : LanguageProfile) :
    ∀ (ts : List Token) (ck : Option SymbolKind),
      (parseSig p ck ts).2.2.length ≤ ts.length := by
  intro ts
  induction ts with
  | nil => intro ck; simp [parseSig]
  | cons t ts ih =>
      intro ck
      rw [parseSig]
      match t.kind with
      | TokenKind.kw s => exact le_trans (ih _) (by simp)
      | TokenKind.ident => simp
      | TokenKind.lbrace => simp
      | TokenKind.rbrace => simp
      | TokenKind.semi => simp
      | TokenKind.lineComment => exact le_trans (ih _) (by simp)
      | TokenKind.blockComment => exact le_trans (ih _) (by simp)
      | TokenKind.docComment => exact le_trans (ih _) (by simp)
      | TokenKind.stringLit => exact le_trans (ih _) (by simp)
      | TokenKind.other => exact le_trans (ih _) (by simp)

theorem takeDocRun_len (ts : List Token) :
    (takeDocRun ts).2.length ≤ ts.length := by
  induction ts with
  | nil => simp [takeDocRun]
  | cons t ts ih =>
      rw [takeDocRun]
      by_cases h : t.kind = TokenKind.docComment
      · rw [if_pos h]; exact le_trans ih (by simp)
      · rw [if_neg h]

theorem ToksFrom_weaken :
    ∀ (ts : List Token) (q q' : Nat), q' ≤ q → ToksFrom q ts → ToksFrom q' ts := by
  intro ts q q' hle h
  cases ts with
  | nil => trivial
  | cons t ts => exact ⟨le_trans hle h.1, h.2.1, h.2.2⟩

/-- Tokens emitted by one scanner step span exactly the consumed region. -/
theorem nextTok_tok (p : LanguageProfile) (pos : Nat) (c : Char) (cs : List Char)
    (t : Token) (n : Nat) (rest : List Char)
    (h : nextTok p pos c cs = Except.ok (some t, n, rest)) :
    t.start = pos ∧ t.stop = pos + n := by
  rw [nextTok] at h
  by_cases hw : c.isWhitespace = true
  · rw [if_pos hw] at h
    simp only [Except.ok.injEq, Prod.mk.injEq] at h
    exact absurd h.1 (by simp)
  · rw [if_neg hw] at h
    by_cases hdoc : c = '/' ∧ cs.head? = some '/' ∧ cs.tail.head? = some '/'
    · rw [if_pos hdoc] at h
      simp only [Except.ok.injEq, Prod.mk.injEq] at h
      obtain ⟨h1, h2, -⟩ := h
      subst h2
      have ht := Option.some.inj h1
      subst ht
      exact ⟨rfl, rfl⟩
    · rw [if_neg hdoc] at h
      by_cases hline : c = '/' ∧ cs.head? = some '/'
      · rw [if_pos hline] at h
        simp only [Except.ok.injEq, Prod.mk.injEq] at h
        obtain ⟨h1, h2, -⟩ := h
        subst h2
        have ht := Option.some.inj h1
        subst ht
        exact ⟨rfl, rfl⟩
      · rw [if_neg hline] at h
        by_cases hblk : c = '/' ∧ cs.head? = some '*'
        · rw [if_pos hblk] at h
          cases hm : scanBlock cs.tail with
          | none => rw [hm] at h; simp at h
          | some q =>
              rw [hm] at h
              simp only [Except.ok.injEq, Prod.mk.injEq] at h
              obtain ⟨h1, h2, -⟩ := h
              subst h2
              have ht := Option.some.inj h1
              subst ht
              exact ⟨rfl, rfl⟩
        · rw [if_neg hblk] at h
          by_cases hstr : c = '"'
          · rw [if_pos hstr] at h
            cases hm : scanStr cs with
            | none => rw [hm] at h; simp at h
            | some q =>
                rw [hm] at h
                simp only [Except.ok.injEq, Prod.mk.injEq] at h
                obtain ⟨h1, h2, -⟩ := h
                subst h2
                have ht := Option.some.inj h1
                subst ht
                exact ⟨rfl, rfl⟩
          · rw [if_neg hstr] at h
            by_cases hid : isIdentStart c = true
            · rw [if_pos hid] at h
              simp only [Except.ok.injEq, Prod.mk.injEq] at h
              obtain ⟨h1, h2, -⟩ := h
              subst h2
              have ht := Option.some.inj h1
              subst ht
              exact ⟨rfl, rfl⟩
            · rw [if_neg hid] at h
              by_cases ho : c = '{'
              · rw [if_pos ho] at h
                simp only [Except.ok.injEq, Prod.mk.injEq] at h
                obtain ⟨h1, h2, -⟩ := h
                subst h2
                have ht := Option.some.inj h1
                subst ht
                exact ⟨rfl, rfl⟩
              · rw [if_neg ho] at h
                by_cases hc2 : c = '}'
                · rw [if_pos hc2] at h
                  simp only [Except.ok.injEq, Prod.mk.injEq] at h
                  obtain ⟨h1, h2, -⟩ := h
                  subst h2
                  have ht := Option.some.inj h1
                  subst ht
                  exact ⟨rfl, rfl⟩
                · rw [if_neg hc2] at h
                  by_cases hc3 : c = ';'
                  · rw [if_pos hc3] at h
                    simp only [Except.ok.injEq, Prod.mk.injEq] at h
                    obtain ⟨h1, h2, -⟩ := h
                    subst h2
                    have ht := Option.some.inj h1
                    subst ht
                    exact ⟨rfl, rfl⟩
                  · rw [if_neg hc3] at h
                    simp only [Except.ok.injEq, Prod.mk.injEq] at h
                    obtain ⟨h1, h2, -⟩ := h
                    subst h2
                    have ht := Option.some.inj h1
                    subst ht
                    exact ⟨rfl, rfl⟩

/-- A scanner step fails only on an unterminated string or block-comment
literal, reporting the offset of its opening character. -/
theorem nextTok_error (p : LanguageProfile) (pos : Nat) (c : Char) (cs : List Char)
    (e : Nat) (h : nextTok p pos c cs = Except.error e) :
    e = pos ∧ ((c = '"' ∧ scanStr cs = none) ∨
      (c = '/' ∧ cs.head? = some '*' ∧ scanBlock cs.tail = none)) := by
  rw [nextTok] at h
  by_cases hw : c.isWhitespace = true
  · rw [if_pos hw] at h; exact absurd h (by simp)
  · rw [if_neg hw] at h
    by_cases hdoc : c = '/' ∧ cs.head? = some '/' ∧ cs.tail.head? = some '/'
    · rw [if_pos hdoc] at h; exact absurd h (by simp)
    · rw [if_neg hdoc] at h
      by_cases hline : c = '/' ∧ cs.head? = some '/'
      · rw [if_pos hline] at h; exact absurd h (by simp)
      · rw [if_neg hline] at h
        by_cases hblk : c = '/' ∧ cs.head? = some '*'
        · rw [if_pos hblk] at h
          cases hm : scanBlock cs.tail with
          | none =>
              rw [hm] at h
              simp only [Except.error.injEq] at h
              exact ⟨h.symm, Or.inr ⟨hblk.1, hblk.2, rfl⟩⟩
          | some q => rw [hm] at h; exact absurd h (by simp)
        · rw [if_neg hblk] at h
          by_cases hstr : c = '"'
          · rw [if_pos hstr] at h
            cases hm : scanStr cs with
            | none =>
                rw [hm] at h
                simp only [Except.error.injEq] at h
                exact ⟨h.symm, Or.inl ⟨hstr, rfl⟩⟩
            | some q => rw [hm] at h; exact absurd h (by simp)
          · rw [if_neg hstr] at h
            by_cases hid : isIdentStart c = true
            · rw [if_pos hid] at h; exact absurd h (by simp)
            · rw [if_neg hid] at h
              by_cases ho : c = '{'
              · rw [if_pos ho] at h; exact absurd h (by simp)
              · rw [if_neg ho] at h
                by_cases hc2 : c = '}'
                · rw [if_pos hc2] at h; exact absurd h (by simp)
                · rw [if_neg hc2] at h
                  by_cases hc3 : c = ';'
                  · rw [if_pos hc3] at h; exact absurd h (by simp)
                  · rw [if_neg hc3] at h; exact absurd h (by simp)

theorem takeLine_append (cs : List Char) :
    (takeLine cs).1 ++ (takeLine cs).2 = cs := by
  induction cs with
  | nil => simp [takeLine]
  | cons c cs ih =>
      by_cases h : c = '\n'
      · simp [takeLine, h]
      · simp [takeLine, h, ih]

theorem takeLine_drop (cs : List Char) :
    (takeLine cs).2 = cs.drop (takeLine cs).1.length := by
  have h := takeLine_append cs
  calc (takeLine cs).2
      = ((takeLine cs).1 ++ (takeLine cs).2).drop (takeLine cs).1.length :=
        (List.drop_left _ _).symm
    _ = cs.drop (takeLine cs).1.length := by rw [h]

theorem takeWhileId_append (cs : List Char) :
    (takeWhileId cs).1 ++ (takeWhileId cs).2 = cs := by
  induction cs with
  | nil => simp [takeWhileId]
  | cons c cs ih =>
      by_cases h : isIdentChar c
      · simp [takeWhileId, h, ih]
      · simp [takeWhileId, h]

theorem takeWhileId_drop (cs : List Char) :
    (takeWhileId cs).2 = cs.drop (takeWhileId cs).1.length := by
  have h := takeWhileId_append cs
  calc (takeWhileId cs).2
      = ((takeWhileId cs).1 ++ (takeWhileId cs).2).drop (takeWhileId cs).1.length :=
        (List.drop_left _ _).symm
    _ = cs.drop (takeWhileId cs).1.length := by rw [h]

theorem scanBlock_drop (cs : List Char) :
    ∀ n r, scanBlock cs = some (n, r) → r = cs.drop n := by
  induction cs with
  | nil => intro n r h; simp [scanBlock] at h
  | cons c cs ih =>
      intro n r h
      rw [scanBlock] at h
      by_cases hc : (c = '*' && cs.head? == some '/') = true
      · rw [if_pos hc] at h
        simp only [Option.some.injEq, Prod.mk.injEq] at h
        obtain ⟨h1, h2⟩ := h
        simp only [Bool.and_eq_true, beq_iff_eq, decide_eq_true_eq] at hc
        cases cs with
        | nil => simp at hc
        | cons d ds => subst h1; subst h2; simp
      · rw [if_neg hc] at h
        cases hm : scanBlock cs with
        | none => rw [hm] at h; simp at h
        | some q =>
            rw [hm] at h
            simp only [Option.map_some', Option.some.injEq, Prod.mk.injEq] at h
            obtain ⟨h1, h2⟩ := h
            have := ih q.1 q.2 (by rw [hm])
            subst h1; subst h2
            simp [this]

theorem scanStrAux_drop (cs : List Char) :
    ∀ esc n r, scanStrAux esc cs = some (n, r) → r = cs.drop n := by
  induction cs with
  | nil => intro esc n r h; simp [scanStrAux] at h
  | cons c cs ih =>
      intro esc n r h
      rw [scanStrAux] at h
      by_cases he : esc = true
      · rw [if_pos he] at h
        cases hm : scanStrAux false cs with
        | none => rw [hm] at h; simp at h
        | some q =>
            rw [hm] at h
            simp only [Option.map_some', Option.some.injEq, Prod.mk.injEq] at h
            obtain ⟨h1, h2⟩ := h
            have := ih false q.1 q.2 (by rw [hm])
            subst h1; subst h2
            simp [this]
      · rw [if_neg he] at h
        by_cases hq : c = '"'
        · rw [if_pos hq] at h
          simp only [Option.some.injEq, Prod.mk.injEq] at h
          obtain ⟨h1, h2⟩ := h
          subst h1; subst h2; simp
        · rw [if_neg hq] at h
          by_cases hb : c = '\\'
          · rw [if_pos hb] at h
            cases hm : scanStrAux true cs with
            | none => rw [hm] at h; simp at h
            | some q =>
                rw [hm] at h
                simp only [Option.map_some', Option.some.injEq, Prod.mk.injEq] at h
                obtain ⟨h1, h2⟩ := h
                have := ih true q.1 q.2 (by rw [hm])
                subst h1; subst h2
                simp [this]
          · rw [if_neg hb] at h
            cases hm : scanStrAux false cs with
            | none => rw [hm] at h; simp at h
            | some q =>
                rw [hm] at h
                simp only [Option.map_some', Option.some.injEq, Prod.mk.injEq] at h
                obtain ⟨h1, h2⟩ := h
                have := ih false q.1 q.2 (by rw [hm])
                subst h1; subst h2
                simp [this]

theorem drop_one_cons {α : Type} (a : α) (l : List α) (k : Nat) :
    (a :: l).drop (1 + k) = l.drop k := by
  rw [Nat.add_comm 1 k]
  show (a :: l).drop (k + 1) = l.drop k
  simp [List.drop_succ_cons]

theorem drop_two_cons {α : Type} (a b : α) (l : List α) (k : Nat) :
    (a :: b :: l).drop (2 + k) = l.drop k := by
  rw [Nat.add_comm 2 k]
  show (a :: b :: l).drop (k + 1 + 1) = l.drop k
  simp [List.drop_succ_cons]

theorem drop_three_cons {α : Type} (a b c : α) (l : List α) (k : Nat) :
    (a :: b :: c :: l).drop (3 + k) = l.drop k := by
  rw [Nat.add_comm 3 k]
  show (a :: b :: c :: l).drop (k + 1 + 1 + 1) = l.drop k
  simp [List.drop_succ_cons]

/-- The remaining characters after a scanner step are the drop of the
consumed prefix. -/
theorem nextTok_drop (p : LanguageProfile) (pos : Nat) (c : Char) (cs : List Char)
    (o : Option Token) (n : Nat) (rest : List Char)
    (h : nextTok p pos c cs = Except.ok (o, n, rest)) :
    rest = (c :: cs).drop n := by
  rw [nextTok] at h
  by_cases hw : c.isWhitespace = true
  · rw [if_pos hw] at h
    simp only [Except.ok.injEq, Prod.mk.injEq] at h
    obtain ⟨-, h2, h3⟩ := h
    subst h2; subst h3; simp
  · rw [if_neg hw] at h
    by_cases hdoc : c = '/' ∧ cs.head? = some '/' ∧ cs.tail.head? = some '/'
    · rw [if_pos hdoc] at h
      simp only [Except.ok.injEq, Prod.mk.injEq] at h
      obtain ⟨-, h2, h3⟩ := h
      obtain ⟨-, hh1, hh2⟩ := hdoc
      cases cs with
      | nil => simp at hh1
      | cons a as =>
          cases as with
          | nil => simp at hh2
          | cons b bs =>
              subst h2; subst h3
              simp only [List.tail_cons]
              have hd := takeLine_drop bs
              rw [hd, drop_three_cons]
    · rw [if_neg hdoc] at h
      by_cases hline : c = '/' ∧ cs.head? = some '/'
      · rw [if_pos hline] at h
        simp only [Except.ok.injEq, Prod.mk.injEq] at h
        obtain ⟨-, h2, h3⟩ := h
        obtain ⟨-, hh1⟩ := hline
        cases cs with
        | nil => simp at hh1
        | cons a as =>
            subst h2; subst h3
            simp only [List.tail_cons]
            have hd := takeLine_drop as
            rw [hd, drop_two_cons]
      · rw [if_neg hline] at h
        by_cases hblk : c = '/' ∧ cs.head? = some '*'
        · rw [if_pos hblk] at h
          cases hm : scanBlock cs.tail with
          | none => rw [hm] at h; simp at h
          | some q =>
              rw [hm] at h
              simp only [Except.ok.injEq, Prod.mk.injEq] at h
              obtain ⟨-, h2, h3⟩ := h
              obtain ⟨-, hh1⟩ := hblk
              cases cs with
              | nil => simp at hh1
              | cons a as =>
                  subst h2; subst h3
                  have hd := scanBlock_drop as q.1 q.2 (by simpa using hm)
                  rw [hd, drop_two_cons]
        · rw [if_neg hblk] at h
          by_cases hstr : c = '"'
          · rw [if_pos hstr] at h
            cases hm : scanStr cs with
            | none => rw [hm] at h; simp at h
            | some q =>
                rw [hm] at h
                simp only [Except.ok.injEq, Prod.mk.injEq] at h
                obtain ⟨-, h2, h3⟩ := h
                subst h2; subst h3
                have hd := scanStrAux_drop cs false q.1 q.2 hm
                rw [hd, drop_one_cons]
          · rw [if_neg hstr] at h
            by_cases hid : isIdentStart c = true
            · rw [if_pos hid] at h
              simp only [Except.ok.injEq, Prod.mk.injEq] at h
              obtain ⟨-, h2, h3⟩ := h
              subst h2; subst h3
              have hd := takeWhileId_drop cs
              rw [hd, drop_one_cons]
            · rw [if_neg hid] at h
              by_cases ho : c = '{'
              · rw [if_pos ho] at h
                simp only [Except.ok.injEq, Prod.mk.injEq] at h
                obtain ⟨-, h2, h3⟩ := h
                subst h2; subst h3; simp
              · rw [if_neg ho] at h
                by_cases hc2 : c = '}'
                · rw [if_pos hc2] at h
                  simp only [Except.ok.injEq, Prod.mk.injEq] at h
                  obtain ⟨-, h2, h3⟩ := h
                  subst h2; subst h3; simp
                · rw [if_neg hc2] at h
                  by_cases hc3 : c = ';'
                  · rw [if_pos hc3] at h
                    simp only [Except.ok.injEq, Prod.mk.injEq] at h
                    obtain ⟨-, h2, h3⟩ := h
                    subst h2; subst h3; simp
                  · rw [if_neg hc3] at h
                    simp only [Except.ok.injEq, Prod.mk.injEq] at h
                    obtain ⟨-, h2, h3⟩ := h
                    subst h2; subst h3; simp

/-- A successful scan yields tokens positioned from `pos` on, in strictly
increasing disjoint source order. -/
theorem scan_toksFrom (p : LanguageProfile) :
    ∀ (fuel pos : Nat) (l : List Char) (ts : List Token),
      scan p fuel pos l = Except.ok ts → ToksFrom pos ts := by
  intro fuel
  induction fuel with
  | zero =>
      intro pos l ts h
      rw [scan] at h
      simp only [Except.ok.injEq] at h
      subst h; trivial
  | succ fuel ih =>
      intro pos l ts h
      cases l with
      | nil =>
          rw [scan] at h
          simp only [Except.ok.injEq] at h
          subst h; trivial
      | cons c cs =>
          rw [scan] at h
          cases hn : nextTok p pos c cs with
          | error e => rw [hn] at h; simp at h
          | ok v =>
              obtain ⟨o, n, rest⟩ := v
              rw [hn] at h
              dsimp only at h
              cases hs : scan p fuel (pos + n) rest with
              | error e => rw [hs] at h; simp at h
              | ok ts' =>
                  rw [hs] at h
                  simp only [Except.ok.injEq] at h
                  subst h
                  have hrec := ih (pos + n) rest ts' hs
                  obtain ⟨hn1, -⟩ := nextTok_len p pos c cs o n rest hn
                  cases o with
                  | none =>
                      exact ToksFrom_weaken ts' (pos + n) pos (by omega) hrec
                  | some t =>
                      obtain ⟨ht1, ht2⟩ := nextTok_tok p pos c cs t n rest hn
                      simp only [Option.elim]
                      show pos ≤ t.start ∧ t.start < t.stop ∧ ToksFrom t.stop ts'
                      refine ⟨by omega, by omega, ?_⟩
                      rw [ht2]
                      exact hrec

/-- Every token of a successful scan stops within the scanned region. -/
theorem scan_stop_le (p : LanguageProfile) :
    ∀ (fuel pos : Nat) (l : List Char) (ts : List Token),
      scan p fuel pos l = Except.ok ts → ∀ t ∈ ts, t.stop ≤ pos + l.length := by
  intro fuel
  induction fuel with
  | zero =>
      intro pos l ts h
      rw [scan] at h
      simp only [Except.ok.injEq] at h
      subst h; simp
  | succ fuel ih =>
      intro pos l ts h
      cases l with
      | nil =>
          rw [scan] at h
          simp only [Except.ok.injEq] at h
          subst h; simp
      | cons c cs =>
          rw [scan] at h
          cases hn : nextTok p pos c cs with
          | error e => rw [hn] at h; simp at h
          | ok v =>
              obtain ⟨o, n, rest⟩ := v
              rw [hn] at h
              dsimp only at h
              cases hs : scan p fuel (pos + n) rest with
              | error e => rw [hs] at h; simp at h
              | ok ts' =>
                  rw [hs] at h
                  simp only [Except.ok.injEq] at h
                  subst h
                  have hrec := ih (pos + n) rest ts' hs
                  obtain ⟨hn1, hn2⟩ := nextTok_len p pos c cs o n rest hn
                  cases o with
                  | none =>
                      intro t ht
                      have := hrec t ht
                      simp only [List.length_cons]
                      omega
                  | some t0 =>
                      intro t ht
                      simp only [Option.elim] at ht
                      cases ht with
                      | head =>
                          obtain ⟨-, ht2⟩ := nextTok_tok p pos c cs t0 n rest hn
                          simp only [List.length_cons]
                          omega
                      | tail _ hmem =>
                          have := hrec t hmem
                          simp only [List.length_cons]
                          omega

/-- A scan failure reports an offset inside the input at which an
unterminated string or block-comment literal opens. -/
theorem scan_error_opener (p : LanguageProfile) :
    ∀ (fuel pos : Nat) (l : List Char) (e : Nat),
      scan p fuel pos l = Except.error e →
      pos ≤ e ∧ OpenerBad (l.drop (e - pos)) := by
  intro fuel
  induction fuel with
  | zero => intro pos l e h; rw [scan] at h; simp at h
  | succ fuel ih =>
      intro pos l e h
      cases l with
      | nil => rw [scan] at h; simp at h
      | cons c cs =>
          rw [scan] at h
          cases hn : nextTok p pos c cs with
          | error e0 =>
              rw [hn] at h
              simp only [Except.error.injEq] at h
              subst h
              obtain ⟨he, hcase⟩ := nextTok_error p pos c cs e0 hn
              subst he
              rw [Nat.sub_self]
              refine ⟨le_refl _, ?_⟩
              cases hcase with
              | inl hq =>
                  exact Or.inl ⟨cs, by rw [hq.1]; simp, hq.2⟩
              | inr hb =>
                  obtain ⟨hc1, hc2, hc3⟩ := hb
                  cases cs with
                  | nil => simp at hc2
                  | cons a as =>
                      simp only [List.head?_cons, Option.some.injEq] at hc2
                      exact Or.inr ⟨as, by rw [hc1, hc2]; simp, by simpa using hc3⟩
          | ok v =>
              obtain ⟨o, n, rest⟩ := v
              rw [hn] at h
              dsimp only at h
              cases hs : scan p fuel (pos + n) rest with
              | error e0 =>
                  rw [hs] at h
                  simp only [Except.error.injEq] at h
                  subst h
                  obtain ⟨hle, hbad⟩ := ih (pos + n) rest e0 hs
                  have hdrop := nextTok_drop p pos c cs o n rest hn
                  refine ⟨by omega, ?_⟩
                  rw [hdrop] at hbad
                  rw [List.drop_drop] at hbad
                  have : n + (e0 - (pos + n)) = e0 - pos := by omega
                  rw [this] at hbad
                  exact hbad
              | ok ts' => rw [hs] at h; simp at h

theorem hasBlockOpen_drop :
    ∀ (l : List Char), hasBlockOpen l = false →
      ∀ n, hasBlockOpen (l.drop n) = false := by
  intro l
  induction l with
  | nil => intro h n; simp [h]
  | cons c cs ih =>
      intro h n
      rw [hasBlockOpen] at h
      simp only [Bool.or_eq_false_iff] at h
      cases n with
      | zero =>
          simp only [List.drop]
          rw [hasBlockOpen]
          simp [h.1, h.2]
      | succ n =>
          simp only [List.drop_succ_cons]
          exact ih h.2 n

/-- Input with no string quote and no block-comment opener always scans
successfully: no other character can fail. -/
theorem scan_ok_no_openers (p : LanguageProfile) :
    ∀ (fuel pos : Nat) (l : List Char),
      '"' ∉ l → hasBlockOpen l = false →
      ∃ ts, scan p fuel pos l = Except.ok ts := by
  intro fuel
  induction fuel with
  | zero => intro pos l hq hb; exact ⟨[], by rw [scan]⟩
  | succ fuel ih =>
      intro pos l hq hb
      cases l with
      | nil => exact ⟨[], by rw [scan]⟩
      | cons c cs =>
          cases hn : nextTok p pos c cs with
          | error e =>
              obtain ⟨-, hcase⟩ := nextTok_error p pos c cs e hn
              cases hcase with
              | inl hqq => exact absurd (hqq.1 ▸ List.mem_cons_self c cs) hq
              | inr hbb =>
                  obtain ⟨hc1, hc2, -⟩ := hbb
                  rw [hasBlockOpen] at hb
                  simp only [Bool.or_eq_false_iff] at hb
                  have : (decide (c = '/') && (cs.head? == some '*')) = true := by
                    simp [hc1, hc2]
                  rw [this] at hb
                  exact absurd hb.1 (by simp)
          | ok v =>
              obtain ⟨o, n, rest⟩ := v
              have hdrop := nextTok_drop p pos c cs o n rest hn
              have hq' : '"' ∉ rest := by
                intro hmem
                exact hq (List.drop_subset n (c :: cs) (hdrop ▸ hmem))
              have hb' : hasBlockOpen rest = false := by
                rw [hdrop]
                exact hasBlockOpen_drop (c :: cs) hb n
              obtain ⟨ts', hts⟩ := ih (pos + n) rest hq' hb'
              refine ⟨o.elim ts' (fun t => t :: ts'), ?_⟩
              rw [scan, hn]
              dsimp only
              rw [hts]

/-! ## Arena and scope-stack lemmas -/

theorem setEnd_length (a : List Span) :
    ∀ (i e : Nat), (setEnd a i e).length = a.length := by
  induction a with
  | nil => intro i e; cases i <;> simp [setEnd]
  | cons s ss ih =>
      intro i e
      cases i with
      | zero => simp [setEnd]
      | succ i => simp [setEnd, ih]

theorem spanAt_setEnd_ne (a : List Span) :
    ∀ (i e j : Nat), j ≠ i → spanAt (setEnd a i e) j = spanAt a j := by
  induction a with
  | nil => intro i e j _; cases i <;> simp [setEnd]
  | cons s ss ih =>
      intro i e j hne
      cases i with
      | zero =>
          cases j with
          | zero => exact absurd rfl hne
          | succ j => simp [setEnd, spanAt]
      | succ i =>
          cases j with
          | zero => simp [setEnd, spanAt]
          | succ j =>
              simp only [setEnd, spanAt, List.get?_cons_succ]
              exact ih i e j (fun h => hne (by rw [h]))

theorem spanAt_setEnd_eq (a : List Span) :
    ∀ (i e : Nat), i < a.length →
      spanAt (setEnd a i e) i = { spanAt a i with endOff := e } := by
  induction a with
  | nil => intro i e h; simp at h
  | cons s ss ih =>
      intro i e h
      cases i with
      | zero => simp [setEnd, spanAt]
      | succ i =>
          simp only [setEnd, spanAt, List.get?_cons_succ]
          exact ih i e (by simpa using h)

theorem setEnd_map_start (a : List Span) :
    ∀ (i e : Nat), (setEnd a i e).map Span.startOff = a.map Span.startOff := by
  induction a with
  | nil => intro i e; cases i <;> simp [setEnd]
  | cons s ss ih =>
      intro i e
      cases i with
      | zero => simp [setEnd]
      | succ i => simp [setEnd, ih]

theorem spanAt_append_lt (a b : List Span) (i : Nat) (h : i < a.length) :
    spanAt (a ++ b) i = spanAt a i := by
  unfold spanAt
  rw [List.get?_append h]

theorem spanAt_append_len (a : List Span) (x : Span) :
    spanAt (a ++ [x]) a.length = x := by
  unfold spanAt
  rw [List.get?_append_right (le_refl _)]
  simp

theorem spanAt_mem (a : List Span) (i : Nat) (h : i < a.length) :
    spanAt a i ∈ a := by
  unfold spanAt
  cases hg : a.get? i with
  | none => exact absurd hg (by simp [List.get?_eq_none]; omega)
  | some s =>
      simp only [Option.getD_some]
      exact List.get?_mem hg

theorem mem_spanAt (a : List Span) (s : Span) (h : s ∈ a) :
    ∃ i, i < a.length ∧ spanAt a i = s := by
  obtain ⟨n, hn⟩ := List.mem_iff_get?.mp h
  have hlt : n < a.length := by
    by_contra hge
    rw [List.get?_eq_none.mpr (by omega)] at hn
    exact Option.noConfusion hn
  refine ⟨n, hlt, ?_⟩
  unfold spanAt
  rw [hn]
  rfl

theorem closeAll_length (stack : List Nat) :
    ∀ (a : List Span) (len : Nat), (closeAll a stack len).length = a.length := by
  induction stack with
  | nil => intro a len; rw [closeAll]
  | cons i r ih =>
      intro a len
      rw [closeAll, ih, setEnd_length]

theorem spanAt_closeAll_notMem (stack : List Nat) :
    ∀ (a : List Span) (len j : Nat), j ∉ stack →
      spanAt (closeAll a stack len) j = spanAt a j := by
  induction stack with
  | nil => intro a len j _; rw [closeAll]
  | cons i r ih =>
      intro a len j hj
      rw [closeAll]
      rw [ih _ _ _ (fun h => hj (List.mem_cons_of_mem _ h))]
      exact spanAt_setEnd_ne a i len j (fun h => hj (h ▸ List.mem_cons_self i r))

theorem spanAt_closeAll_mem (stack : List Nat) :
    ∀ (a : List Span) (len j : Nat), j ∈ stack → j < a.length → stack.Nodup →
      spanAt (closeAll a stack len) j = { spanAt a j with endOff := len } := by
  induction stack with
  | nil => intro a len j hj; simp at hj
  | cons i r ih =>
      intro a len j hj hlt hnd
      rw [closeAll]
      rcases List.mem_cons.mp hj with hji | hjr
      · subst hji
        have hnot : j ∉ r := (List.nodup_cons.mp hnd).1
        rw [spanAt_closeAll_notMem r _ _ _ hnot]
        exact spanAt_setEnd_eq a j len hlt
      · have hne : j ≠ i := by
          intro h
          exact (List.nodup_cons.mp hnd).1 (h ▸ hjr)
        rw [ih _ _ _ hjr (by rw [setEnd_length]; exact hlt)
          (List.nodup_cons.mp hnd).2]
        rw [spanAt_setEnd_ne a i len j hne]

theorem closeAll_map_start (stack : List Nat) :
    ∀ (a : List Span) (len : Nat),
      (closeAll a stack len).map Span.startOff = a.map Span.startOff := by
  induction stack with
  | nil => intro a len; rw [closeAll]
  | cons i r ih =>
      intro a len
      rw [closeAll, ih, setEnd_map_start]

theorem stackOk_congr (a a' : List Span) :
    ∀ (stack : List Nat), (∀ i ∈ stack, spanAt a' i = spanAt a i) →
      StackOk a stack → StackOk a' stack := by
  intro stack
  induction stack with
  | nil => intro _ _; trivial
  | cons i r ih =>
      intro hcong hok
      cases r with
      | nil =>
          rw [StackOk] at hok ⊢
          rw [hcong i (List.mem_cons_self i [])]
          exact hok
      | cons j r2 =>
          rw [StackOk] at hok ⊢
          refine ⟨?_, ih (fun x hx => hcong x (List.mem_cons_of_mem _ hx)) hok.2⟩
          rw [hcong i (List.mem_cons_self i _)]
          exact hok.1

theorem stackOk_parent_mem (a : List Span) :
    ∀ (stack : List Nat) (i pa : Nat), StackOk a stack → i ∈ stack →
      (spanAt a i).parent = some pa → pa ∈ stack := by
  intro stack
  induction stack with
  | nil => intro i pa _ hi; simp at hi
  | cons x r ih =>
      intro i pa hok hi hp
      cases r with
      | nil =>
          rw [StackOk] at hok
          rcases List.mem_cons.mp hi with rfl | h
          · rw [hok] at hp; simp at hp
          · simp at h
      | cons y r2 =>
          rw [StackOk] at hok
          rcases List.mem_cons.mp hi with rfl | h
          · rw [hok.1] at hp
            simp only [Option.some.injEq] at hp
            subst hp
            exact List.mem_cons_of_mem _ (List.mem_cons_self _ _)
          · exact List.mem_cons_of_mem _ (ih i pa hok.2 h hp)

theorem stack_le_head (stack : List Nat) (x h : Nat)
    (hs : stack.Pairwise (fun i j => j < i)) (hh : stack.head? = some h)
    (hx : x ∈ stack) : x ≤ h := by
  cases stack with
  | nil => simp at hx
  | cons y r =>
      simp only [List.head?_cons, Option.some.injEq] at hh
      subst hh
      rcases List.mem_cons.mp hx with rfl | hr
      · exact le_refl x
      · exact le_of_lt (List.rel_of_pairwise_cons hs hr)

theorem closeAll_ok (a : List Span) (stack : List Nat) (pending : Option Nat)
    (pos len : Nat) (hInv : RecInv a stack pending pos) (hlen : pos ≤ len) :
    SpanTreeOk (closeAll a stack len) len := by
  have hnd : stack.Nodup :=
    List.Pairwise.imp (fun hlt => Nat.ne_of_gt hlt) hInv.stackSorted
  have hparent_pres : ∀ j, j < a.length →
      (spanAt (closeAll a stack len) j).parent = (spanAt a j).parent := by
    intro j hj
    by_cases hm : j ∈ stack
    · rw [spanAt_closeAll_mem stack a len j hm hj hnd]
    · rw [spanAt_closeAll_notMem stack a len j hm]
  have hstart_pres : ∀ j, j < a.length →
      (spanAt (closeAll a stack len) j).startOff = (spanAt a j).startOff := by
    intro j hj
    by_cases hm : j ∈ stack
    · rw [spanAt_closeAll_mem stack a len j hm hj hnd]
    · rw [spanAt_closeAll_notMem stack a len j hm]
  have hend : ∀ j, j < a.length →
      (spanAt (closeAll a stack len) j).endOff ≤ len := by
    intro j hj
    by_cases hm : j ∈ stack
    · rw [spanAt_closeAll_mem stack a len j hm hj hnd]
    · rw [spanAt_closeAll_notMem stack a len j hm]
      exact le_trans (hInv.closedEnd j hj hm) hlen
  have hlength : (closeAll a stack len).length = a.length :=
    closeAll_length stack a len
  refine ⟨?_, ?_, ?_, ?_⟩
  · intro i hi pa hpa
    rw [hlength] at hi
    rw [hparent_pres i hi] at hpa
    obtain ⟨h1, h2, h3⟩ := hInv.parentFacts i hi pa hpa
    have hpalt : pa < a.length := lt_trans h1 hi
    refine ⟨h1, ?_, ?_⟩
    · rw [hstart_pres i hi, hstart_pres pa hpalt]
      exact h2
    · by_cases hpam : pa ∈ stack
      · rw [spanAt_closeAll_mem stack a len pa hpam hpalt hnd]
        exact hend i hi
      · have him : i ∉ stack := by
          intro him
          exact hpam (stackOk_parent_mem a stack i pa hInv.stackOk him hpa)
        rcases h3 with h3 | h3
        · exact absurd h3 hpam
        · rw [spanAt_closeAll_notMem stack a len i him,
            spanAt_closeAll_notMem stack a len pa hpam]
          exact h3
  · rw [closeAll_map_start]
    exact hInv.startMono
  · intro i j hij hj hp
    rw [hlength] at hj
    have hi : i < a.length := lt_trans hij hj
    rw [hparent_pres i hi, hparent_pres j hj] at hp
    obtain ⟨h1, h2⟩ := hInv.siblings i j hij hj hp
    rw [spanAt_closeAll_notMem stack a len i h2, hstart_pres j hj]
    exact h1
  · intro s hs
    obtain ⟨i, hi, hsi⟩ := mem_spanAt _ s hs
    rw [hlength] at hi
    rw [← hsi]
    exact hend i hi

theorem parseSig_subset (p : LanguageProfile) :
    ∀ (ts : List Token) (ck : Option SymbolKind),
      ∀ x ∈ (parseSig p ck ts).2.2, x ∈ ts := by
  intro ts
  induction ts with
  | nil => intro ck x hx; rw [parseSig] at hx; simp at hx
  | cons t ts ih =>
      intro ck x hx
      rw [parseSig] at hx
      match t.kind, hx with
      | TokenKind.kw s, hx => exact List.mem_cons_of_mem _ (ih _ x hx)
      | TokenKind.ident, hx => exact List.mem_cons_of_mem _ hx
      | TokenKind.lbrace, hx => exact hx
      | TokenKind.rbrace, hx => exact hx
      | TokenKind.semi, hx => exact hx
      | TokenKind.lineComment, hx => exact List.mem_cons_of_mem _ (ih _ x hx)
      | TokenKind.blockComment, hx => exact List.mem_cons_of_mem _ (ih _ x hx)
      | TokenKind.docComment, hx => exact List.mem_cons_of_mem _ (ih _ x hx)
      | TokenKind.stringLit, hx => exact List.mem_cons_of_mem _ (ih _ x hx)
      | TokenKind.other, hx => exact List.mem_cons_of_mem _ (ih _ x hx)

theorem parseSig_toksFrom (p : LanguageProfile) :
    ∀ (ts : List Token) (ck : Option SymbolKind) (q : Nat), ToksFrom q ts →
      ∃ q', q ≤ q' ∧ ToksFrom q' (parseSig p ck ts).2.2 ∧
        (q' = q ∨ ∃ u ∈ ts, q' = u.stop) := by
  intro ts
  induction ts with
  | nil =>
      intro ck q h
      exact ⟨q, le_refl q, by rw [parseSig]; trivial, Or.inl rfl⟩
  | cons t ts ih =>
      intro ck q h
      obtain ⟨h1, h2, h3⟩ := h
      rw [parseSig]
      match t.kind with
      | TokenKind.kw s =>
          obtain ⟨q', hq1, hq2, hq3⟩ := ih _ t.stop h3
          refine ⟨q', by omega, hq2, Or.inr ?_⟩
          rcases hq3 with rfl | ⟨u, hu, rfl⟩
          · exact ⟨t, List.mem_cons_self _ _, rfl⟩
          · exact ⟨u, List.mem_cons_of_mem _ hu, rfl⟩
      | TokenKind.ident =>
          exact ⟨t.stop, by omega, h3, Or.inr ⟨t, List.mem_cons_self _ _, rfl⟩⟩
      | TokenKind.lbrace => exact ⟨q, le_refl q, ⟨h1, h2, h3⟩, Or.inl rfl⟩
      | TokenKind.rbrace => exact ⟨q, le_refl q, ⟨h1, h2, h3⟩, Or.inl rfl⟩
      | TokenKind.semi => exact ⟨q, le_refl q, ⟨h1, h2, h3⟩, Or.inl rfl⟩
      | TokenKind.lineComment =>
          obtain ⟨q', hq1, hq2, hq3⟩ := ih _ t.stop h3
          refine ⟨q', by omega, hq2, Or.inr ?_⟩
          rcases hq3 with rfl | ⟨u, hu, rfl⟩
          · exact ⟨t, List.mem_cons_self _ _, rfl⟩
          · exact ⟨u, List.mem_cons_of_mem _ hu, rfl⟩
      | TokenKind.blockComment =>
          obtain ⟨q', hq1, hq2, hq3⟩ := ih _ t.stop h3
          refine ⟨q', by omega, hq2, Or.inr ?_⟩
          rcases hq3 with rfl | ⟨u, hu, rfl⟩
          · exact ⟨t, List.mem_cons_self _ _, rfl⟩
          · exact ⟨u, List.mem_cons_of_mem _ hu, rfl⟩
      | TokenKind.docComment =>
          obtain ⟨q', hq1, hq2, hq3⟩ := ih _ t.stop h3
          refine ⟨q', by omega, hq2, Or.inr ?_⟩
          rcases hq3 with rfl | ⟨u, hu, rfl⟩
          · exact ⟨t, List.mem_cons_self _ _, rfl⟩
          · exact ⟨u, List.mem_cons_of_mem _ hu, rfl⟩
      | TokenKind.stringLit =>
          obtain ⟨q', hq1, hq2, hq3⟩ := ih _ t.stop h3
          refine ⟨q', by omega, hq2, Or.inr ?_⟩
          rcases hq3 with rfl | ⟨u, hu, rfl⟩
          · exact ⟨t, List.mem_cons_self _ _, rfl⟩
          · exact ⟨u, List.mem_cons_of_mem _ hu, rfl⟩
      | TokenKind.other =>
          obtain ⟨q', hq1, hq2, hq3⟩ := ih _ t.stop h3
          refine ⟨q', by omega, hq2, Or.inr ?_⟩
          rcases hq3 with rfl | ⟨u, hu, rfl⟩
          · exact ⟨t, List.mem_cons_self _ _, rfl⟩
          · exact ⟨u, List.mem_cons_of_mem _ hu, rfl⟩

/-- The invariant is monotone in the position bound. -/
theorem RecInv.mono {a : List Span} {stack : List Nat} {pending : Option Nat}
    {pos pos' : Nat} (hle : pos ≤ pos')
    (h : RecInv a stack pending pos) : RecInv a stack pending pos' where
  stackLt := h.stackLt
  stackSorted := h.stackSorted
  stackOk := h.stackOk
  startMono := h.startMono
  startLt := fun s hs => lt_of_lt_of_le (h.startLt s hs) hle
  closedEnd := fun i hi hm => le_trans (h.closedEnd i hi hm) hle
  parentFacts := h.parentFacts
  pendingFacts := h.pendingFacts
  siblings := h.siblings

/-- Dropping the pending declaration preserves the invariant. -/
theorem RecInv.clearPending {a : List Span} {stack : List Nat}
    {pending : Option Nat} {pos : Nat}
    (h : RecInv a stack pending pos) : RecInv a stack none pos where
  stackLt := h.stackLt
  stackSorted := h.stackSorted
  stackOk := h.stackOk
  startMono := h.startMono
  startLt := h.startLt
  closedEnd := h.closedEnd
  parentFacts := h.parentFacts
  pendingFacts := fun i hi => Option.noConfusion hi
  siblings := h.siblings

/-- Pushing the pending declaration onto the scope stack preserves the
invariant. -/
theorem RecInv.push {a : List Span} {stack : List Nat} {i : Nat} {pos : Nat}
    (h : RecInv a stack (some i) pos) : RecInv a (i :: stack) none pos := by
  obtain ⟨hi1, hi2, hi3⟩ := h.pendingFacts i rfl
  have hilt : i < a.length := by omega
  have hstlt : ∀ x ∈ stack, x < i := by
    intro x hx
    have := h.stackLt x hx
    have hne : x ≠ i := fun hxi => hi2 (hxi ▸ hx)
    omega
  refine ⟨?_, ?_, ?_, h.startMono, h.startLt, ?_, ?_, ?_, ?_⟩
  · intro x hx
    rcases List.mem_cons.mp hx with rfl | hx
    · exact hilt
    · exact h.stackLt x hx
  · exact List.pairwise_cons.mpr ⟨hstlt, h.stackSorted⟩
  · cases hst : stack with
    | nil =>
        rw [StackOk]
        rw [hst] at hi3
        simpa using hi3
    | cons j r =>
        rw [StackOk]
        rw [hst] at hi3
        simp only [List.head?_cons] at hi3
        exact ⟨hi3, hst ▸ h.stackOk⟩
  · intro j hj hm
    exact h.closedEnd j hj (fun hjs => hm (List.mem_cons_of_mem _ hjs))
  · intro x hx pa hpa
    obtain ⟨h1, h2, h3⟩ := h.parentFacts x hx pa hpa
    refine ⟨h1, h2, ?_⟩
    rcases h3 with h3 | h3
    · exact Or.inl (List.mem_cons_of_mem _ h3)
    · exact Or.inr h3
  · intro j hj
    exact Option.noConfusion hj
  · intro x y hxy hy hp
    obtain ⟨h1, h2⟩ := h.siblings x y hxy hy hp
    refine ⟨h1, ?_⟩
    intro hmem
    rcases List.mem_cons.mp hmem with rfl | hmem
    · omega
    · exact h2 hmem

/-- Creating a new span (as a child of the innermost open scope, starting
at or after the current position) preserves the invariant, with the new
span pending. -/
theorem RecInv.append {a : List Span} {stack : List Nat} {pending : Option Nat}
    {pos : Nat} (h : RecInv a stack pending pos)
    (k : SymbolKind) (nm : String) (b e : Nat) (hb : pos ≤ b) (hbe : b < e) :
    RecInv (a ++ [⟨k, nm, b, e, stack.head?⟩]) stack (some a.length) e := by
  set sp : Span := ⟨k, nm, b, e, stack.head?⟩ with hsp
  have hsp_start : sp.startOff = b := rfl
  have hsp_end : sp.endOff = e := rfl
  have hsp_parent : sp.parent = stack.head? := rfl
  have hlen : (a ++ [sp]).length = a.length + 1 := by simp
  have hat_new : spanAt (a ++ [sp]) a.length = sp := spanAt_append_len a sp
  have hat_old : ∀ j, j < a.length → spanAt (a ++ [sp]) j = spanAt a j :=
    fun j hj => spanAt_append_lt a [sp] j hj
  have hstack_lt : ∀ x ∈ stack, x < a.length := h.stackLt
  refine ⟨?_, h.stackSorted, ?_, ?_, ?_, ?_, ?_, ?_, ?_⟩
  · intro x hx
    rw [hlen]
    exact lt_trans (hstack_lt x hx) (by omega)
  · exact stackOk_congr a (a ++ [sp]) stack
      (fun x hx => hat_old x (hstack_lt x hx)) h.stackOk
  · rw [List.map_append]
    refine List.pairwise_append.mpr ⟨h.startMono, by simp, ?_⟩
    intro x hx y hy
    simp only [List.map_cons, List.map_nil, List.mem_singleton] at hy
    subst hy
    obtain ⟨s, hs, rfl⟩ := List.mem_map.mp hx
    exact lt_of_lt_of_le (h.startLt s hs) hb
  · intro s hs
    rcases List.mem_append.mp hs with hs | hs
    · exact lt_of_lt_of_le (h.startLt s hs) (by omega)
    · rw [List.mem_singleton] at hs
      subst hs
      rw [hsp_start]
      exact hbe
  · intro j hj hjm
    rw [hlen] at hj
    by_cases hji : j = a.length
    · subst hji
      rw [hat_new, hsp_end]
    · have hjlt : j < a.length := by omega
      rw [hat_old j hjlt]
      exact le_trans (h.closedEnd j hjlt hjm) (by omega)
  · intro i hi pa hpa
    rw [hlen] at hi
    by_cases hii : i = a.length
    · subst hii
      rw [hat_new, hsp_parent] at hpa
      have hpam : pa ∈ stack := by
        cases stack with
        | nil => simp at hpa
        | cons x r =>
            simp only [List.head?_cons, Option.some.injEq] at hpa
            rw [← hpa]
            exact List.mem_cons_self x r
      have hpalt : pa < a.length := hstack_lt pa hpam
      refine ⟨hpalt, ?_, Or.inl hpam⟩
      rw [hat_new, hat_old pa hpalt, hsp_start]
      have := h.startLt (spanAt a pa) (spanAt_mem a pa hpalt)
      omega
    · have hilt : i < a.length := by omega
      rw [hat_old i hilt] at hpa
      obtain ⟨h1, h2, h3⟩ := h.parentFacts i hilt pa hpa
      have hpalt : pa < a.length := lt_trans h1 hilt
      refine ⟨h1, ?_, ?_⟩
      · rw [hat_old i hilt, hat_old pa hpalt]
        exact h2
      · rcases h3 with h3 | h3
        · exact Or.inl h3
        · refine Or.inr ?_
          rw [hat_old i hilt, hat_old pa hpalt]
          exact h3
  · intro i hi
    simp only [Option.some.injEq] at hi
    subst hi
    refine ⟨by rw [hlen], ?_, ?_⟩
    · intro hmem
      exact absurd (hstack_lt _ hmem) (lt_irrefl _)
    · rw [hat_new, hsp_parent]
  · intro i j hij hj hp
    rw [hlen] at hj
    by_cases hji : j = a.length
    · subst hji
      have hilt : i < a.length := hij
      rw [hat_new, hat_old i hilt, hsp_parent] at hp
      have him : i ∉ stack := by
        intro hmem
        cases stack with
        | nil => simp at hmem
        | cons x r =>
            simp only [List.head?_cons] at hp
            obtain ⟨hx1, -, -⟩ := h.parentFacts i hilt x hp
            have := stack_le_head (x :: r) i x h.stackSorted rfl hmem
            omega
      refine ⟨?_, him⟩
      rw [hat_old i hilt, hat_new, hsp_start]
      exact le_trans (h.closedEnd i hilt him) hb
    · have hjlt : j < a.length := by omega
      have hilt : i < a.length := lt_trans hij hjlt
      rw [hat_old i hilt, hat_old j hjlt] at hp
      obtain ⟨h1, h2⟩ := h.siblings i j hij hjlt hp
      rw [hat_old i hilt, hat_old j hjlt]
      exact ⟨h1, h2⟩

/-- Closing the innermost open scope at a position at or after the current
one preserves the invariant. -/
theorem RecInv.pop {a : List Span} {T : Nat} {rest : List Nat}
    {pending : Option Nat} {pos e : Nat}
    (h : RecInv a (T :: rest) pending pos) (he : pos ≤ e) :
    RecInv (setEnd a T e) rest none e := by
  have hT : T < a.length := h.stackLt T (List.mem_cons_self T rest)
  have hrest_lt_T : ∀ x ∈ rest, x < T :=
    fun x hx => List.rel_of_pairwise_cons h.stackSorted hx
  have hat_T : spanAt (setEnd a T e) T = { spanAt a T with endOff := e } :=
    spanAt_setEnd_eq a T e hT
  have hat_ne : ∀ j, j ≠ T → spanAt (setEnd a T e) j = spanAt a j :=
    fun j hj => spanAt_setEnd_ne a T e j hj
  have hlen : (setEnd a T e).length = a.length := setEnd_length a T e
  have hparent_pres : ∀ j, (spanAt (setEnd a T e) j).parent = (spanAt a j).parent := by
    intro j
    by_cases hj : j = T
    · subst hj; rw [hat_T]
    · rw [hat_ne j hj]
  have hstart_pres : ∀ j, (spanAt (setEnd a T e) j).startOff = (spanAt a j).startOff := by
    intro j
    by_cases hj : j = T
    · subst hj; rw [hat_T]
    · rw [hat_ne j hj]
  refine ⟨?_, List.Pairwise.of_cons h.stackSorted, ?_, ?_, ?_, ?_, ?_, ?_, ?_⟩
  · intro x hx
    rw [hlen]
    exact h.stackLt x (List.mem_cons_of_mem _ hx)
  · have hok : StackOk a rest := by
      cases rest with
      | nil => trivial
      | cons j r2 =>
          have hok2 := h.stackOk
          rw [StackOk] at hok2
          exact hok2.2
    exact stackOk_congr a (setEnd a T e) rest
      (fun x hx => hat_ne x (Nat.ne_of_lt (hrest_lt_T x hx))) hok
  · rw [setEnd_map_start]
    exact h.startMono
  · intro s hs
    obtain ⟨i, hi, hsi⟩ := mem_spanAt _ s hs
    rw [hlen] at hi
    rw [← hsi]
    rw [hstart_pres i]
    exact lt_of_lt_of_le (h.startLt (spanAt a i) (spanAt_mem a i hi)) he
  · intro j hj hjm
    rw [hlen] at hj
    by_cases hjT : j = T
    · subst hjT
      rw [hat_T]
    · rw [hat_ne j hjT]
      have : j ∉ T :: rest := by
        intro hmem
        rcases List.mem_cons.mp hmem with h' | h'
        · exact hjT h'
        · exact hjm h'
      exact le_trans (h.closedEnd j hj this) he
  · intro i hi pa hpa
    rw [hlen] at hi
    rw [hparent_pres i] at hpa
    obtain ⟨h1, h2, h3⟩ := h.parentFacts i hi pa hpa
    refine ⟨h1, by rw [hstart_pres i, hstart_pres pa]; exact h2, ?_⟩
    by_cases hpaT : pa = T
    · subst hpaT
      have hiT : i ≠ pa := Nat.ne_of_gt h1
      have him : i ∉ pa :: rest := by
        intro hmem
        rcases List.mem_cons.mp hmem with h' | h'
        · exact hiT h'
        · exact absurd h1 (by have := hrest_lt_T i h'; omega)
      refine Or.inr ?_
      rw [hat_ne i hiT, hat_T]
      exact le_trans (h.closedEnd i hi him) he
    · rcases h3 with h3 | h3
      · rcases List.mem_cons.mp h3 with h' | h'
        · exact absurd h' hpaT
        · exact Or.inl h'
      · by_cases hiT : i = T
        · have hpa2 : (spanAt a T).parent = some pa := by
            rw [← hiT]; exact hpa
          have hmemT : pa ∈ T :: rest :=
            stackOk_parent_mem a (T :: rest) T pa h.stackOk
              (List.mem_cons_self T rest) hpa2
          rcases List.mem_cons.mp hmemT with h' | h'
          · exact absurd h' hpaT
          · exact Or.inl h'
        · refine Or.inr ?_
          rw [hat_ne i hiT, hat_ne pa hpaT]
          exact h3
  · intro i hi
    exact Option.noConfusion hi
  · intro i j hij hj hp
    rw [hlen] at hj
    rw [hparent_pres i, hparent_pres j] at hp
    obtain ⟨h1, h2⟩ := h.siblings i j hij hj hp
    have hiT : i ≠ T := fun hiT => h2 (hiT ▸ List.mem_cons_self T rest)
    refine ⟨?_, ?_⟩
    · rw [hat_ne i hiT, hstart_pres j]
      exact h1
    · intro hmem
      exact h2 (List.mem_cons_of_mem _ hmem)

/-- Running the recognizer from an invariant state yields a well-formed
span tree: nesting containment, source-ordered openings, disjoint
siblings, and end offsets within the file. -/
theorem recog_inv (p : LanguageProfile) (len : Nat) :
    ∀ (fuel : Nat) (ts : List Token) (st : RecState) (pos : Nat),
      ToksFrom pos ts → (∀ t ∈ ts, t.stop ≤ len) → pos ≤ len →
      RecInv st.arena st.stack st.pending pos →
      SpanTreeOk (recog p len fuel ts st) len := by
  intro fuel
  induction fuel with
  | zero =>
      intro ts st pos _ _ hlen hInv
      rw [recog]
      exact closeAll_ok _ _ _ _ _ hInv hlen
  | succ fuel ih =>
      intro ts st pos htf hstop hlen hInv
      cases ts with
      | nil =>
          rw [recog]
          exact closeAll_ok _ _ _ _ _ hInv hlen
      | cons t ts =>
          obtain ⟨hp1, hp2, hp3⟩ := htf
          have htstop : t.stop ≤ len := hstop t (List.mem_cons_self _ _)
          have hstop2 : ∀ u ∈ ts, u.stop ≤ len :=
            fun u hu => hstop u (List.mem_cons_of_mem _ hu)
          have hposs : pos ≤ t.stop := by omega
          rw [recog]
          match t.kind with
          | TokenKind.kw s =>
              obtain ⟨q', hq1, hq2, hq3⟩ :=
                parseSig_toksFrom p ts (keywordKind p s) t.stop hp3
              have hqlen : q' ≤ len := by
                rcases hq3 with rfl | ⟨u, hu, rfl⟩
                · exact htstop
                · exact hstop2 u hu
              have hstep :=
                RecInv.mono hq1
                  (RecInv.append hInv
                    (parseSig p (keywordKind p s) ts).1
                    (parseSig p (keywordKind p s) ts).2.1
                    t.start t.stop hp1 hp2)
              exact ih (parseSig p (keywordKind p s) ts).2.2
                ⟨st.arena ++
                  [⟨(parseSig p (keywordKind p s) ts).1,
                    (parseSig p (keywordKind p s) ts).2.1,
                    t.start, t.stop, st.stack.head?⟩],
                 st.stack, some st.arena.length⟩ q' hq2
                (fun u hu => hstop2 u (parseSig_subset p ts _ u hu)) hqlen hstep
          | TokenKind.lbrace =>
              cases hpend : st.pending with
              | some i =>
                  have hInv1 : RecInv st.arena st.stack (some i) pos :=
                    hpend ▸ hInv
                  exact ih ts ⟨st.arena, i :: st.stack, none⟩ t.stop hp3 hstop2
                    htstop (RecInv.mono hposs (RecInv.push hInv1))
              | none =>
                  have hstep :=
                    RecInv.push
                      (RecInv.append hInv SymbolKind.other "" t.start t.stop
                        hp1 hp2)
                  exact ih ts
                    ⟨st.arena ++
                      [⟨SymbolKind.other, "", t.start, t.stop, st.stack.head?⟩],
                     st.arena.length :: st.stack, none⟩ t.stop hp3 hstop2
                    htstop hstep
          | TokenKind.rbrace =>
              cases hstk : st.stack with
              | cons T rest =>
                  have hInv1 : RecInv st.arena (T :: rest) st.pending pos :=
                    hstk ▸ hInv
                  exact ih ts ⟨setEnd st.arena T t.stop, rest, none⟩ t.stop hp3
                    hstop2 htstop (RecInv.pop hInv1 hposs)
              | nil =>
                  have hInv1 : RecInv st.arena [] st.pending pos :=
                    hstk ▸ hInv
                  exact ih ts ⟨st.arena, [], none⟩ t.stop hp3 hstop2 htstop
                    (RecInv.mono hposs hInv1.clearPending)
          | TokenKind.semi =>
              exact ih ts ⟨st.arena, st.stack, none⟩ t.stop hp3 hstop2 htstop
                (RecInv.mono hposs hInv.clearPending)
          | TokenKind.ident =>
              exact ih ts st t.stop hp3 hstop2 htstop (RecInv.mono hposs hInv)
          | TokenKind.lineComment =>
              exact ih ts st t.stop hp3 hstop2 htstop (RecInv.mono hposs hInv)
          | TokenKind.blockComment =>
              exact ih ts st t.stop hp3 hstop2 htstop (RecInv.mono hposs hInv)
          | TokenKind.docComment =>
              exact ih ts st t.stop hp3 hstop2 htstop (RecInv.mono hposs hInv)
          | TokenKind.stringLit =>
              exact ih ts st t.stop hp3 hstop2 htstop (RecInv.mono hposs hInv)
          | TokenKind.other =>
              exact ih ts st t.stop hp3 hstop2 htstop (RecInv.mono hposs hInv)

/-- The initial recognizer state satisfies the invariant. -/
theorem initState_inv : RecInv initState.arena initState.stack
    initState.pending 0 where
  stackLt := by intro i hi; simp [initState] at hi
  stackSorted := List.Pairwise.nil
  stackOk := trivial
  startMono := List.Pairwise.nil
  startLt := by intro s hs; simp [initState] at hs
  closedEnd := by intro i hi; simp [initState] at hi
  parentFacts := by intro i hi; simp [initState] at hi
  pendingFacts := by intro i hi; simp [initState] at hi
  siblings := by intro i j hij hj; simp [initState] at hj
  -- (the empty arena makes every clause vacuous)

/-- The span arena of any extraction forms a well-formed tree. -/
theorem arenaOf_ok (p : LanguageProfile) (src : String) :
    SpanTreeOk (arenaOf p src) src.length := by
  unfold arenaOf
  cases hs : scan p src.data.length 0 src.data with
  | error e =>
      refine ⟨?_, ?_, ?_, ?_⟩
      · intro i hi; simp at hi
      · simp
      · intro i j hij hj; simp at hj
      · intro s hsm; simp at hsm
  | ok toks =>
      have htf := scan_toksFrom p src.data.length 0 src.data toks hs
      have hstop := scan_stop_le p src.data.length 0 src.data toks hs
      have hlen : src.length = src.data.length := rfl
      exact recog_inv p src.length toks.length toks initState 0 htf
        (fun t ht => by have := hstop t ht; omega) (by omega) initState_inv

/-- The output of a successful extraction is the symbol table built from
the extraction's span arena and doc blocks. -/
theorem extractSymbols_eq (src languageId : String) (p : LanguageProfile)
    (h : lookupProfile languageId = some p) (out : List SymbolRecord)
    (hout : extractSymbols src languageId = Except.ok out) :
    out = buildRecords p (arenaOf p src)
      (collect (toksOf p src).length (toksOf p src)) := by
  unfold extractSymbols at hout
  rw [h] at hout
  dsimp only at hout
  unfold arenaOf toksOf
  cases hs : scan p src.data.length 0 src.data with
  | error e => rw [hs] at hout; simp at hout
  | ok toks =>
      rw [hs] at hout
      simp only [Except.ok.injEq] at hout
      exact hout.symm

theorem buildRecords_length (p : LanguageProfile) (a : List Span)
    (blocks : List DocBlock) : (buildRecords p a blocks).length = a.length := by
  unfold buildRecords
  rw [List.length_map, List.length_range]

theorem buildRecords_get? (p : LanguageProfile) (a : List Span)
    (blocks : List DocBlock) (i : Nat) (hi : i < a.length) :
    (buildRecords p a blocks).get? i = some (recordOf p a blocks i) := by
  unfold buildRecords
  rw [List.get?_map, List.get?_range hi]
  rfl

theorem buildRecords_mem (p : LanguageProfile) (a : List Span)
    (blocks : List DocBlock) (r : SymbolRecord)
    (hr : r ∈ buildRecords p a blocks) :
    ∃ i, i < a.length ∧ r = recordOf p a blocks i := by
  unfold buildRecords at hr
  obtain ⟨i, hi, rfl⟩ := List.mem_map.mp hr
  exact ⟨i, List.mem_range.mp hi, rfl⟩

theorem spanAt_get (a : List Span) (i : Nat) (h : i < a.length) :
    spanAt a i = a.get ⟨i, h⟩ := by
  unfold spanAt
  rw [List.get?_eq_get h]
  rfl

/-- Strict monotonicity of the arena's start offsets, index form. -/
theorem startMono_spanAt (a : List Span)
    (h : (a.map Span.startOff).Pairwise (· < ·)) :
    ∀ i j, i < j → j < a.length →
      (spanAt a i).startOff < (spanAt a j).startOff := by
  intro i j hij hj
  have hi : i < a.length := lt_trans hij hj
  have hmap := List.pairwise_iff_get.mp h
    ⟨i, by simpa using hi⟩ ⟨j, by simpa using hj⟩ (by simpa using hij)
  rw [List.get_map, List.get_map] at hmap
  rw [spanAt_get a i hi, spanAt_get a j hj]
  exact hmap

theorem pathNames_eq_map (a : List Span) :
    ∀ (fuel i : Nat),
      pathNames a fuel i =
        (idxPath a fuel i).map (fun j => (spanAt a j).name) := by
  intro fuel
  induction fuel with
  | zero => intro i; rw [pathNames, idxPath]; simp
  | succ fuel ih =>
      intro i
      rw [pathNames, idxPath]
      cases hpa : (spanAt a i).parent with
      | none => simp
      | some pa => simp [ih pa]

theorem idxPath_chain (a : List Span)
    (hwf : ∀ i pa, (spanAt a i).parent = some pa → pa < i) :
    ∀ (fuel i : Nat), i ≤ fuel → AncChain a i (idxPath a fuel i) := by
  intro fuel
  induction fuel with
  | zero =>
      intro i hi
      have hi0 : i = 0 := by omega
      subst hi0
      rw [idxPath]
      cases hpa : (spanAt a 0).parent with
      | none => exact AncChain.root 0 hpa
      | some pa => exact absurd (hwf 0 pa hpa) (by omega)
  | succ fuel ih =>
      intro i hi
      rw [idxPath]
      cases hpa : (spanAt a i).parent with
      | none => exact AncChain.root i hpa
      | some pa =>
          exact AncChain.step i pa _ hpa
            (ih pa (by have := hwf i pa hpa; omega))

theorem spanAt_ge (a : List Span) (i : Nat) (h : a.length ≤ i) :
    spanAt a i = default := by
  unfold spanAt
  rw [List.get?_eq_none.mpr h]
  rfl

/-- Parent references in any extraction's arena point strictly backwards. -/
theorem arenaOf_parentLt (p : LanguageProfile) (src : String) :
    ∀ i pa, (spanAt (arenaOf p src) i).parent = some pa → pa < i := by
  intro i pa hpa
  by_cases hi : i < (arenaOf p src).length
  · exact ((arenaOf_ok p src).parentsOk i hi pa hpa).1
  · rw [spanAt_ge _ i (by omega)] at hpa
    have : (default : Span).parent = none := rfl
    rw [this] at hpa
    exact Option.noConfusion hpa

/-! ## Doc-Comment Collector lemmas -/

/-- The input splits as the maximal doc-comment run followed by the rest,
and the collected texts are those doc comments with markers stripped. -/
theorem takeDocRun_split :
    ∀ (ts : List Token), ∃ run : List Token,
      ts = run ++ (takeDocRun ts).2 ∧
      (∀ x ∈ run, x.kind = TokenKind.docComment) ∧
      (takeDocRun ts).1 = run.map (fun x => stripDoc x.text) := by
  intro ts
  induction ts with
  | nil => exact ⟨[], by rw [takeDocRun]; rfl, by simp, by rw [takeDocRun]; rfl⟩
  | cons t ts ih =>
      by_cases h : t.kind = TokenKind.docComment
      · obtain ⟨run, h1, h2, h3⟩ := ih
        refine ⟨t :: run, ?_, ?_, ?_⟩
        · rw [takeDocRun, if_pos h]
          dsimp only
          conv_lhs => rw [h1]
          rw [List.cons_append]
        · intro x hx
          rcases List.mem_cons.mp hx with rfl | hx
          · exact h
          · exact h2 x hx
        · rw [takeDocRun, if_pos h]
          dsimp only
          rw [h3]
          rfl
      · exact ⟨[], by rw [takeDocRun, if_neg h]; rfl, by simp,
          by rw [takeDocRun, if_neg h]; rfl⟩

/-- Every collected DocBlock arises from a nonempty doc-comment run, and
its tentative attachment is computed by findTarget on the tokens that
follow the run. -/
theorem collect_mem :
    ∀ (fuel : Nat) (ts : List Token) (b : DocBlock), b ∈ collect fuel ts →
      ∃ pre run r, ts = pre ++ run ++ r ∧ run ≠ [] ∧
        (∀ x ∈ run, x.kind = TokenKind.docComment) ∧
        b.target = findTarget r := by
  intro fuel
  induction fuel with
  | zero => intro ts b hb; rw [collect] at hb; simp at hb
  | succ fuel ih =>
      intro ts b hb
      cases ts with
      | nil => rw [collect] at hb; simp at hb
      | cons t ts =>
          rw [collect] at hb
          by_cases h : t.kind = TokenKind.docComment
          · rw [if_pos h] at hb
            dsimp only at hb
            obtain ⟨run0, hs1, hs2, hs3⟩ := takeDocRun_split ts
            rcases List.mem_cons.mp hb with rfl | hb2
            · refine ⟨[], t :: run0, (takeDocRun ts).2, ?_, by simp, ?_, rfl⟩
              · simp only [List.nil_append, List.cons_append]
                rw [← hs1]
              · intro x hx
                rcases List.mem_cons.mp hx with rfl | hx
                · exact h
                · exact hs2 x hx
            · obtain ⟨pre, run, r, hr1, hr2, hr3, hr4⟩ :=
                ih (takeDocRun ts).2 b hb2
              refine ⟨t :: run0 ++ pre, run, r, ?_, hr2, hr3, hr4⟩
              conv_lhs => rw [hs1, hr1]
              simp [List.append_assoc]
          · rw [if_neg h] at hb
            obtain ⟨pre, run, r, hr1, hr2, hr3, hr4⟩ := ih ts b hb
            exact ⟨t :: pre, run, r, by rw [hr1]; simp, hr2, hr3, hr4⟩

/-- findTarget finds exactly the next declaration-introducing token,
looking through ordinary comments and nothing else. -/
theorem findTarget_some :
    ∀ (r : List Token) (off : Nat), findTarget r = some off ↔
      ∃ mid u post, r = mid ++ u :: post ∧
        (∀ m ∈ mid, isOrdComment m = true) ∧
        isDeclStart u = true ∧ u.start = off := by
  intro r
  induction r with
  | nil =>
      intro off
      constructor
      · intro h; rw [findTarget] at h; exact absurd h (by simp)
      · rintro ⟨mid, u, post, h1, -, -, -⟩
        exact absurd h1 (by simp)
  | cons t ts ih =>
      intro off
      rw [findTarget]
      by_cases hoc : isOrdComment t = true
      · rw [if_pos hoc]
        constructor
        · intro h
          obtain ⟨mid, u, post, h1, h2, h3, h4⟩ := (ih off).mp h
          refine ⟨t :: mid, u, post, by rw [h1]; rfl, ?_, h3, h4⟩
          intro m hm
          rcases List.mem_cons.mp hm with rfl | hm
          · exact hoc
          · exact h2 m hm
        · intro ⟨mid, u, post, h1, h2, h3, h4⟩
          cases mid with
          | nil =>
              simp only [List.nil_append, List.cons.injEq] at h1
              obtain ⟨rfl, -⟩ := h1
              rw [isOrdComment] at hoc
              rw [isDeclStart] at h3
              cases hk : t.kind <;> rw [hk] at hoc h3 <;> simp at hoc h3
          | cons m ms =>
              simp only [List.cons_append, List.cons.injEq] at h1
              obtain ⟨rfl, h1⟩ := h1
              exact (ih off).mpr ⟨ms, u, post, h1,
                fun x hx => h2 x (List.mem_cons_of_mem _ hx), h3, h4⟩
      · rw [if_neg hoc]
        by_cases hds : isDeclStart t = true
        · rw [if_pos hds]
          constructor
          · intro h
            simp only [Option.some.injEq] at h
            exact ⟨[], t, ts, rfl, by simp, hds, h⟩
          · intro ⟨mid, u, post, h1, h2, h3, h4⟩
            cases mid with
            | nil =>
                simp only [List.nil_append, List.cons.injEq] at h1
                obtain ⟨rfl, -⟩ := h1
                rw [h4]
            | cons m ms =>
                simp only [List.cons_append, List.cons.injEq] at h1
                obtain ⟨rfl, -⟩ := h1
                exact absurd (h2 t (List.mem_cons_self t ms)) hoc
        · rw [if_neg hds]
          constructor
          · intro h; exact absurd h (by simp)
          · intro ⟨mid, u, post, h1, h2, h3, h4⟩
            cases mid with
            | nil =>
                simp only [List.nil_append, List.cons.injEq] at h1
                obtain ⟨rfl, -⟩ := h1
                exact absurd h3 hds
            | cons m ms =>
                simp only [List.cons_append, List.cons.injEq] at h1
                obtain ⟨rfl, -⟩ := h1
                exact absurd (h2 t (List.mem_cons_self t ms)) hoc

/-! ## Claim theorems -/

/-- C1: for the fixture source file and the languageId identifying its
grammar, extractSymbols returns exactly three SymbolRecords in order:
test_mod (module, doc "Test module docstring", depth 0),
test_mod::my_func (function, doc "Test function docstring", depth 1), and
main (function, depth 0, no doc); nothing inside main's body produces a
record. -/
theorem extractSymbols_fixture :
    extractSymbols fixture "rust" = Except.ok
      [⟨"test_mod", SymbolKind.module, 73, 212, some "Test module docstring", 0⟩,
       ⟨"test_mod::my_func", SymbolKind.function, 128, 210,
         some "Test function docstring", 1⟩,
       ⟨"main", SymbolKind.function, 214, 300, none, 0⟩] := by rfl

/-- C3: for every sourceText, if the languageId has no registered
LanguageProfile then extractSymbols returns UnsupportedLanguage and no
later pipeline stage runs. -/
theorem extractSymbols_unsupported (src languageId : String)
    (h : lookupProfile languageId = none) :
    extractSymbols src languageId =
      Except.error ExtractionError.UnsupportedLanguage := by
  unfold extractSymbols
  rw [h]

/-- Witness for C3 at the spec's unsupported-language scenario. -/
theorem extractSymbols_unsupported_witness :
    lookupProfile "no-such-lang" = none ∧
    extractSymbols "anything" "no-such-lang" =
      Except.error ExtractionError.UnsupportedLanguage :=
  ⟨by rfl, extractSymbols_unsupported "anything" "no-such-lang" (by rfl)⟩

/-- C9: extractSymbols is deterministic — identical arguments yield
identical ordered output. -/
theorem extractSymbols_deterministic (s₁ s₂ l₁ l₂ : String)
    (hs : s₁ = s₂) (hl : l₁ = l₂) :
    extractSymbols s₁ l₁ = extractSymbols s₂ l₂ := by
  rw [hs, hl]

/-- Witness for C9 at the fixture. -/
theorem extractSymbols_deterministic_witness :
    extractSymbols fixture "rust" = extractSymbols fixture "rust" :=
  extractSymbols_deterministic fixture fixture "rust" "rust" rfl rfl

/-- C2: for every source text and registered languageId, extractSymbols
terminates (it is a total function) with either a symbol table or a
MalformedInput error — no other failure exists — and in every successful
extraction all spans are closed at or before end-of-file, so unbalanced
scope delimiters are closed implicitly rather than failing. -/
theorem extractSymbols_total (src languageId : String) (p : LanguageProfile)
    (h : lookupProfile languageId = some p) :
    ((∃ out, extractSymbols src languageId = Except.ok out) ∨
      (∃ off, extractSymbols src languageId =
        Except.error (ExtractionError.MalformedInput off))) ∧
    (∀ out, extractSymbols src languageId = Except.ok out →
      ∀ r ∈ out, r.endOff ≤ src.length) := by
  constructor
  · unfold extractSymbols
    rw [h]
    dsimp only
    cases hs : scan p src.data.length 0 src.data with
    | error e => exact Or.inr ⟨e, rfl⟩
    | ok toks => exact Or.inl ⟨_, rfl⟩
  · intro out hout r hr
    rw [extractSymbols_eq src languageId p h out hout] at hr
    obtain ⟨i, hi, rfl⟩ := buildRecords_mem p _ _ r hr
    have hend := (arenaOf_ok p src).endLe (spanAt (arenaOf p src) i)
      (spanAt_mem _ i hi)
    exact hend

/-- Witness for C2 on a source with an unbalanced open scope: extraction
succeeds and the open module span is closed implicitly at end-of-file
(offset 11 = the input length). -/
theorem extractSymbols_total_witness :
    (((∃ out, extractSymbols "pub mod m \x7b" "rust" = Except.ok out) ∨
      (∃ off, extractSymbols "pub mod m \x7b" "rust" =
        Except.error (ExtractionError.MalformedInput off))) ∧
    (∀ out, extractSymbols "pub mod m \x7b" "rust" = Except.ok out →
      ∀ r ∈ out, r.endOff ≤ ("pub mod m \x7b" : String).length)) ∧
    extractSymbols "pub mod m \x7b" "rust" =
      Except.ok [⟨"m", SymbolKind.module, 0, 11, none, 0⟩] :=
  ⟨extractSymbols_total "pub mod m \x7b" "rust" rustProfile rfl, by rfl⟩

/-- C5: in every successful extraction, records are emitted in the source
order of their declaration openings: if A's opening starts before B's, A
appears before B in the output sequence. -/
theorem extractSymbols_ordering (src languageId : String) (p : LanguageProfile)
    (out : List SymbolRecord) (i j : Nat) (ri rj : SymbolRecord)
    (h : lookupProfile languageId = some p)
    (hout : extractSymbols src languageId = Except.ok out)
    (hi : out.get? i = some ri) (hj : out.get? j = some rj)
    (hlt : ri.startOff < rj.startOff) : i < j := by
  rw [extractSymbols_eq src languageId p h out hout] at hi hj
  have hilen : i < (arenaOf p src).length := by
    by_contra hge
    rw [← buildRecords_length p (arenaOf p src)
      (collect (toksOf p src).length (toksOf p src))] at hge
    rw [List.get?_eq_none.mpr (by omega)] at hi
    exact Option.noConfusion hi
  have hjlen : j < (arenaOf p src).length := by
    by_contra hge
    rw [← buildRecords_length p (arenaOf p src)
      (collect (toksOf p src).length (toksOf p src))] at hge
    rw [List.get?_eq_none.mpr (by omega)] at hj
    exact Option.noConfusion hj
  rw [buildRecords_get? p _ _ i hilen] at hi
  rw [buildRecords_get? p _ _ j hjlen] at hj
  have hri : ri.startOff = (spanAt (arenaOf p src) i).startOff := by
    rw [← Option.some.inj hi]; rfl
  have hrj : rj.startOff = (spanAt (arenaOf p src) j).startOff := by
    rw [← Option.some.inj hj]; rfl
  rw [hri, hrj] at hlt
  by_contra hge
  rcases Nat.lt_or_ge j i with hji | hij2
  · have := startMono_spanAt (arenaOf p src) (arenaOf_ok p src).startMono
      j i hji hilen
    omega
  · have : i = j := by omega
    subst this
    omega

/-- Witness for C5 at the fixture: test_mod opens before main, and indeed
precedes it in the output. -/
theorem extractSymbols_ordering_witness : (0 : Nat) < 2 :=
  extractSymbols_ordering fixture "rust" rustProfile
    [⟨"test_mod", SymbolKind.module, 73, 212, some "Test module docstring", 0⟩,
     ⟨"test_mod::my_func", SymbolKind.function, 128, 210,
       some "Test function docstring", 1⟩,
     ⟨"main", SymbolKind.function, 214, 300, none, 0⟩]
    0 2
    ⟨"test_mod", SymbolKind.module, 73, 212, some "Test module docstring", 0⟩
    ⟨"main", SymbolKind.function, 214, 300, none, 0⟩
    rfl (by rfl) (by rfl) (by rfl) (by decide)

/-- C8: in the declaration-span tree of any extraction, every span's byte
range is contained in its parent's, and sibling ranges never overlap. -/
theorem span_tree_nesting (p : LanguageProfile) (src : String) :
    (∀ i pa, i < (arenaOf p src).length →
        (spanAt (arenaOf p src) i).parent = some pa →
        (spanAt (arenaOf p src) pa).startOff ≤
          (spanAt (arenaOf p src) i).startOff ∧
        (spanAt (arenaOf p src) i).endOff ≤
          (spanAt (arenaOf p src) pa).endOff) ∧
    (∀ i j, i < j → j < (arenaOf p src).length →
        (spanAt (arenaOf p src) i).parent = (spanAt (arenaOf p src) j).parent →
        (spanAt (arenaOf p src) i).endOff ≤
          (spanAt (arenaOf p src) j).startOff) := by
  have h := arenaOf_ok p src
  refine ⟨?_, h.siblingsOk⟩
  intro i pa hi hpa
  exact ⟨(h.parentsOk i hi pa hpa).2.1, (h.parentsOk i hi pa hpa).2.2⟩

/-- Witness for C8 at the fixture: my_func's span (index 1) is contained
in its parent test_mod's span (index 0), and the two root spans (test_mod
and main) do not overlap. -/
theorem span_tree_nesting_witness :
    ((spanAt (arenaOf rustProfile fixture) 0).startOff ≤
      (spanAt (arenaOf rustProfile fixture) 1).startOff ∧
     (spanAt (arenaOf rustProfile fixture) 1).endOff ≤
      (spanAt (arenaOf rustProfile fixture) 0).endOff) ∧
    (spanAt (arenaOf rustProfile fixture) 0).endOff ≤
      (spanAt (arenaOf rustProfile fixture) 2).startOff :=
  ⟨(span_tree_nesting rustProfile fixture).1 1 0 (by decide) (by rfl),
   (span_tree_nesting rustProfile fixture).2 0 2 (by decide) (by decide)
     (by rfl)⟩

/-- C6: every SymbolRecord's fully qualified name is the concatenation of
its ancestor declarations' names, root to leaf, joined by the profile's
nesting separator; its depth is the number of proper ancestors. -/
theorem fqName_ancestor_chain (src languageId : String) (p : LanguageProfile)
    (out : List SymbolRecord) (i : Nat) (r : SymbolRecord)
    (h : lookupProfile languageId = some p)
    (hout : extractSymbols src languageId = Except.ok out)
    (hr : out.get? i = some r) :
    ∃ l, AncChain (arenaOf p src) i l ∧
      r.fqName = String.intercalate p.nestingSep
        (l.map (fun j => (spanAt (arenaOf p src) j).name)) ∧
      r.depth = l.length - 1 := by
  rw [extractSymbols_eq src languageId p h out hout] at hr
  have hilen : i < (arenaOf p src).length := by
    by_contra hge
    rw [← buildRecords_length p (arenaOf p src)
      (collect (toksOf p src).length (toksOf p src))] at hge
    rw [List.get?_eq_none.mpr (by omega)] at hr
    exact Option.noConfusion hr
  rw [buildRecords_get? p _ _ i hilen] at hr
  have hrec := Option.some.inj hr
  refine ⟨idxPath (arenaOf p src) i i,
    idxPath_chain (arenaOf p src) (arenaOf_parentLt p src) i i (le_refl i),
    ?_, ?_⟩
  · rw [← hrec]
    show String.intercalate p.nestingSep (pathNames (arenaOf p src) i i) = _
    rw [pathNames_eq_map]
  · rw [← hrec]
    show (pathNames (arenaOf p src) i i).length - 1 = _
    rw [pathNames_eq_map, List.length_map]

/-- Witness for C6 at the fixture's my_func record (index 1): its chain is
test_mod (index 0) then my_func (index 1), giving "test_mod::my_func" at
depth 1. -/
theorem fqName_ancestor_chain_witness :
    ∃ l, AncChain (arenaOf rustProfile fixture) 1 l ∧
      ("test_mod::my_func" : String) = String.intercalate rustProfile.nestingSep
        (l.map (fun j => (spanAt (arenaOf rustProfile fixture) j).name)) ∧
      (1 : Nat) = l.length - 1 := by
  have h := fqName_ancestor_chain fixture "rust" rustProfile
    [⟨"test_mod", SymbolKind.module, 73, 212, some "Test module docstring", 0⟩,
     ⟨"test_mod::my_func", SymbolKind.function, 128, 210,
       some "Test function docstring", 1⟩,
     ⟨"main", SymbolKind.function, 214, 300, none, 0⟩]
    1
    ⟨"test_mod::my_func", SymbolKind.function, 128, 210,
      some "Test function docstring", 1⟩
    rfl (by rfl) (by rfl)
  exact h

/-- C7: every DocBlock arises from a nonempty run of doc comments, and it
attaches — to at most one declaration, the syntactically nearest following
one — if and only if only comment tokens (whitespace is not tokenized)
stand between the end of the run and that declaration's opening token; a
block with no target is simply kept unattached, never an error. -/
theorem doc_attachment (fuel : Nat) (ts : List Token) (b : DocBlock)
    (hb : b ∈ collect fuel ts) :
    ∃ pre run r, ts = pre ++ run ++ r ∧ run ≠ [] ∧
      (∀ x ∈ run, x.kind = TokenKind.docComment) ∧
      b.target = findTarget r ∧
      (∀ off, b.target = some off ↔
        ∃ mid u post, r = mid ++ u :: post ∧
          (∀ m ∈ mid, isOrdComment m = true) ∧
          isDeclStart u = true ∧ u.start = off) := by
  obtain ⟨pre, run, r, h1, h2, h3, h4⟩ := collect_mem fuel ts b hb
  refine ⟨pre, run, r, h1, h2, h3, h4, ?_⟩
  intro off
  rw [h4]
  exact findTarget_some r off

/-- Witness for C7 at the fixture's module doc block. -/
theorem doc_attachment_witness :
    ∃ pre run r,
      toksOf rustProfile fixture = pre ++ run ++ r ∧ run ≠ [] ∧
      (∀ x ∈ run, x.kind = TokenKind.docComment) ∧
      (⟨"Test module docstring", some 73⟩ : DocBlock).target = findTarget r ∧
      (∀ off, (⟨"Test module docstring", some 73⟩ : DocBlock).target =
          some off ↔
        ∃ mid u post, r = mid ++ u :: post ∧
          (∀ m ∈ mid, isOrdComment m = true) ∧
          isDeclStart u = true ∧ u.start = off) :=
  doc_attachment (toksOf rustProfile fixture).length (toksOf rustProfile fixture)
    ⟨"Test module docstring", some 73⟩
    (by
      have h : collect (toksOf rustProfile fixture).length
          (toksOf rustProfile fixture) =
          [⟨"Test module docstring", some 73⟩,
           ⟨"Test function docstring", some 128⟩] := by rfl
      rw [h]
      exact List.mem_cons_self _ _)

/-- C4: a MalformedInput error carries the offset at which an unterminated
string or block-comment literal opens and runs to end-of-input; input with
no literal opener at all never fails; and an otherwise-unrecognized
character is emitted as an "other" token of width one and scanning
continues; the spec's mid-string scenario reports the opening quote's
offset 8. -/
theorem malformed_input_characterization :
    (∀ (src : String) (off : Nat),
        extractSymbols src "rust" =
          Except.error (ExtractionError.MalformedInput off) →
        OpenerBad (src.data.drop off)) ∧
    (∀ src : String, '"' ∉ src.data → hasBlockOpen src.data = false →
        ∃ out, extractSymbols src "rust" = Except.ok out) ∧
    (∀ (p : LanguageProfile) (pos : Nat) (c : Char) (cs : List Char),
        ¬c.isWhitespace = true → c ≠ '/' → c ≠ '"' → ¬isIdentStart c = true →
        c ≠ '{' → c ≠ '}' → c ≠ ';' →
        nextTok p pos c cs =
          Except.ok (some ⟨TokenKind.other, pos, pos + 1, String.mk [c]⟩,
            1, cs)) ∧
    extractSymbols "let s = \"unterminated" "rust" =
      Except.error (ExtractionError.MalformedInput 8) := by
  have hrust : lookupProfile "rust" = some rustProfile := rfl
  refine ⟨?_, ?_, ?_, by rfl⟩
  · intro src off h
    unfold extractSymbols at h
    rw [hrust] at h
    dsimp only at h
    cases hs : scan rustProfile src.data.length 0 src.data with
    | error e =>
        rw [hs] at h
        simp only [Except.error.injEq, ExtractionError.MalformedInput.injEq] at h
        subst h
        have := scan_error_opener rustProfile src.data.length 0 src.data e hs
        rw [Nat.sub_zero] at this
        exact this.2
    | ok toks => rw [hs] at h; simp at h
  · intro src hq hb
    obtain ⟨ts, hts⟩ :=
      scan_ok_no_openers rustProfile src.data.length 0 src.data hq hb
    refine ⟨buildRecords rustProfile
      (recog rustProfile src.length ts.length ts initState)
      (collect ts.length ts), ?_⟩
    unfold extractSymbols
    rw [hrust]
    dsimp only
    rw [hts]
  · intro p pos c cs hw hslash hquote hid hob hcb hsemi
    rw [nextTok]
    rw [if_neg hw]
    rw [if_neg (fun hx => hslash hx.1)]
    rw [if_neg (fun hx => hslash hx.1)]
    rw [if_neg (fun hx => hslash hx.1)]
    rw [if_neg hquote]
    rw [if_neg hid]
    rw [if_neg hob]
    rw [if_neg hcb]
    rw [if_neg hsemi]

/-- Witness for C4: the mid-string scenario's offset 8 is the opening
quote of an unterminated string; an opener-free source extracts
successfully; an unknown character scans as "other" and scanning
continues. -/
theorem malformed_input_witness :
    OpenerBad (("let s = \"unterminated" : String).data.drop 8) ∧
    (∃ out, extractSymbols "let x = 1" "rust" = Except.ok out) ∧
    nextTok rustProfile 5 '@' ['a'] =
      Except.ok (some ⟨TokenKind.other, 5, 6, String.mk ['@']⟩, 1, ['a']) :=
  ⟨malformed_input_characterization.1 "let s = \"unterminated" 8 (by rfl),
   malformed_input_characterization.2.1 "let x = 1" (by decide) (by rfl),
   malformed_input_characterization.2.2.1 rustProfile 5 '@' ['a'] (by decide)
     (by decide) (by decide) (by decide) (by decide) (by decide) (by decide)⟩

/-- C10: the ordinary line comment on line 1 of the fixture, though
adjacent to the doc comment on line 2, is accumulated into no DocBlock:
the collector yields exactly two blocks, neither containing the line-1
text, and the doc attached to test_mod is exactly "Test module docstring"
with the marker stripped. -/
theorem fixture_line1_comment_not_doc :
    collect (toksOf rustProfile fixture).length (toksOf rustProfile fixture) =
      [⟨"Test module docstring", some 73⟩,
       ⟨"Test function docstring", some 128⟩] ∧
    (recordOf rustProfile (arenaOf rustProfile fixture)
      (collect (toksOf rustProfile fixture).length (toksOf rustProfile fixture))
      0).doc = some "Test module docstring" := by
  constructor
  · rfl
  · rfl

end SymbolExtraction
